import Mathlib

/-!
ActivityManager: container assignment and the boot-status requirement proxy.

A shallow embedding of `src/ContainerManager.cpp` and `src/SystemManagerProxy.cpp`.

* Shared pointers to `ResourceContainer` objects are indices into an arena (`heap`);
  pointer equality is index equality.
* `std::map` is an association list with unique keys (`mapFind`, `mapSet`).
* Calls made on collaborators (containers, the scheduler, the standing bus call) are
  recorded as a list of events returned next to the new state.
-/

namespace ActivityManager

/-! ## Association maps -/

/-- Lookup of a key: the model of `std::map::find` (none is `end()`). -/
def mapFind {κ ν : Type} [DecidableEq κ] : List (κ × ν) → κ → Option ν
  | [], _ => none
  | (k, v) :: rest, q => if k = q then some v else mapFind rest q

/-- Assignment through `operator[]`: the binding of the key is overwritten when the key is
present, and a new binding is added otherwise. -/
def mapSet {κ ν : Type} [DecidableEq κ] : List (κ × ν) → κ → ν → List (κ × ν)
  | [], q, w => [(q, w)]
  | (k, v) :: rest, q, w => if k = q then (k, w) :: rest else (k, v) :: mapSet rest q w

/-! ## Containers -/

/-- A bus identifier (`BusId`), opaque here. -/
abbrev BusId := Nat
/-- The identity of a `BusEntity` object (what `shared_ptr` comparison looks at). -/
abbrev Entity := Nat
/-- A process identifier (`pid_t`). -/
abbrev Pid := Int
/-- The identity of a `ResourceContainer` object: its index in the arena. -/
abbrev ContainerRef := Nat

/-- Modelled from the spec: the class `ResourceContainer` (ResourceContainer.h/.cpp is not
among the sources).  A container has a name, a set of member entities, a set of mapped
process identifiers and an enabled flag; its priority value is opaque to this core and is
not stored. -/
structure ResourceContainer where
  m_name : String
  m_entities : List Entity
  m_pids : List Pid
  m_enabled : Bool
  deriving DecidableEq, Repr

namespace ResourceContainer

/-- Modelled from the spec: `ResourceContainer::AddEntity`, which is not among the sources;
it inserts the entity into the member set (a set: inserting a member again changes
nothing). -/
def AddEntity (entity : Entity) (c : ResourceContainer) : ResourceContainer :=
  if entity ∈ c.m_entities then c else { c with m_entities := c.m_entities ++ [entity] }

/-- Modelled from the spec: `ResourceContainer::RemoveEntity`, which is not among the
sources; it removes the entity from the member set. -/
def RemoveEntity (entity : Entity) (c : ResourceContainer) : ResourceContainer :=
  { c with m_entities := c.m_entities.filter (fun x => decide (x ≠ entity)) }

/-- Modelled from the spec: `ResourceContainer::MapProcess`, which is not among the
sources; it adds the process identifier to the set of mapped processes. -/
def MapProcess (pid : Pid) (c : ResourceContainer) : ResourceContainer :=
  if pid ∈ c.m_pids then c else { c with m_pids := c.m_pids ++ [pid] }

/-- Modelled from the spec: `ResourceContainer::Enable`, which is not among the sources. -/
def Enable (c : ResourceContainer) : ResourceContainer := { c with m_enabled := true }

/-- Modelled from the spec: `ResourceContainer::Disable`, which is not among the sources. -/
def Disable (c : ResourceContainer) : ResourceContainer := { c with m_enabled := false }

end ResourceContainer

/-- Calls that the manager makes on container objects, in the order they are made.
`UpdatePriority` is the priority recomputation; what it computes is external. -/
inductive Event where
  | AddEntity (c : ContainerRef) (entity : Entity)
  | RemoveEntity (c : ContainerRef) (entity : Entity)
  | UpdatePriority (c : ContainerRef)
  | MapProcess (c : ContainerRef) (pid : Pid)
  | Enable (c : ContainerRef)
  | Disable (c : ContainerRef)
  deriving DecidableEq, Repr

/-- Apply a method to the object stored at an index of the arena. -/
def heapModify (f : ResourceContainer → ResourceContainer) :
    List ResourceContainer → ContainerRef → List ResourceContainer
  | [], _ => []
  | c :: rest, 0 => f c :: rest
  | c :: rest, r + 1 => c :: heapModify f rest r

/-! ## ContainerManager -/

/-- The state of a `ContainerManager`: the arena of container objects, the registry
`m_containers` (name to container), the table `m_entityContainers` (entity to container)
and the flag `m_enabled`. -/
structure ContainerManager where
  heap : List ResourceContainer
  m_containers : List (String × ContainerRef)
  m_entityContainers : List (Entity × ContainerRef)
  m_enabled : Bool
  deriving DecidableEq, Repr

namespace ContainerManager

/-- The constructor: no containers, no assignments, disabled. -/
def init : ContainerManager :=
  { heap := [], m_containers := [], m_entityContainers := [], m_enabled := false }

/-- Invoke a method on the container object behind a reference. -/
def onContainer (m : ContainerManager) (r : ContainerRef)
    (f : ResourceContainer → ResourceContainer) : ContainerManager :=
  { m with heap := heapModify f m.heap r }

/-- Modelled from the spec: `ContainerManager::CreateContainer`, a virtual factory whose
implementations are not among the sources.  The new container is bound to the name, has no
members and no processes, and is disabled unless the manager is currently enabled. -/
def CreateContainer (m : ContainerManager) (name : String) : ResourceContainer :=
  { m_name := name, m_entities := [], m_pids := [], m_enabled := m.m_enabled }

/-- `ContainerManager::GetContainer`: the registered container of the name, or a newly
allocated one that is registered under the name. -/
def GetContainer (m : ContainerManager) (name : String) : ContainerManager × ContainerRef :=
  match mapFind m.m_containers name with
  | some found => (m, found)
  | none =>
    let container := m.heap.length
    ({ m with heap := m.heap ++ [m.CreateContainer name],
              m_containers := mapSet m.m_containers name container }, container)

/-- The body of the loop of `MapContainer` for one resolved entity. -/
def MapEntity (container : ContainerRef) (m : ContainerManager) (entity : Entity) :
    ContainerManager × List Event :=
  match mapFind m.m_entityContainers entity with
  | some cur =>
    if cur ≠ container then
      let m1 := m.onContainer cur (ResourceContainer.RemoveEntity entity)
      let m2 := m1.onContainer container (ResourceContainer.AddEntity entity)
      ({ m2 with m_entityContainers := mapSet m2.m_entityContainers entity container },
        [Event.RemoveEntity cur entity, Event.UpdatePriority cur,
         Event.AddEntity container entity])
    else (m, [])
  | none =>
    let m1 := m.onContainer container (ResourceContainer.AddEntity entity)
    ({ m1 with m_entityContainers := mapSet m1.m_entityContainers entity container },
      [Event.AddEntity container entity])

/-- The loop of `MapContainer` over the identifiers, in input order.  `GetEntity` is the
entity registry of the master resource manager (external). -/
def MapEntities (GetEntity : BusId → Entity) (container : ContainerRef) :
    ContainerManager → List BusId → ContainerManager × List Event
  | m, [] => (m, [])
  | m, id :: rest =>
    let s := MapEntity container m (GetEntity id)
    let t := MapEntities GetEntity container s.1 rest
    (t.1, s.2 ++ t.2)

/-- `ContainerManager::MapContainer`. -/
def MapContainer (GetEntity : BusId → Entity) (m : ContainerManager) (name : String)
    (ids : List BusId) (pid : Pid) : ContainerManager × List Event :=
  let g := m.GetContainer name
  let l := MapEntities GetEntity g.2 g.1 ids
  (l.1.onContainer g.2 (ResourceContainer.MapProcess pid),
    l.2 ++ [Event.UpdatePriority g.2, Event.MapProcess g.2 pid])

/-- `ContainerManager::InformEntityUpdated`. -/
def InformEntityUpdated (m : ContainerManager) (entity : Entity) :
    ContainerManager × List Event :=
  match mapFind m.m_entityContainers entity with
  | none => (m, [])
  | some c => (m, [Event.UpdatePriority c])

/-- The `for_each` of `Enable` and `Disable`: one method call on every registered
container. -/
def broadcast (f : ResourceContainer → ResourceContainer) (m : ContainerManager) :
    ContainerManager :=
  (m.m_containers.map Prod.snd).foldl (fun acc r => acc.onContainer r f) m

/-- `ContainerManager::Enable`. -/
def Enable (m : ContainerManager) : ContainerManager × List Event :=
  (broadcast ResourceContainer.Enable { m with m_enabled := true },
    (m.m_containers.map Prod.snd).map Event.Enable)

/-- `ContainerManager::Disable`. -/
def Disable (m : ContainerManager) : ContainerManager × List Event :=
  (broadcast ResourceContainer.Disable { m with m_enabled := false },
    (m.m_containers.map Prod.snd).map Event.Disable)

/-- `ContainerManager::IsEnabled`. -/
def IsEnabled (m : ContainerManager) : Bool := m.m_enabled

/-- The entity is in the member set of the container object behind the reference. -/
def isMember (m : ContainerManager) (r : ContainerRef) (entity : Entity) : Prop :=
  ∃ c, m.heap[r]? = some c ∧ entity ∈ c.m_entities

/-- The consistency of the arena, the registry and the assignment table: a registered
reference points to a container of that name, every container object is registered under
its own name, the table points into the arena, and the member sets agree with the table. -/
structure Inv (m : ContainerManager) : Prop where
  regValid : ∀ name r, mapFind m.m_containers name = some r →
    ∃ c, m.heap[r]? = some c ∧ c.m_name = name
  heapReg : ∀ r c, m.heap[r]? = some c → mapFind m.m_containers c.m_name = some r
  tabValid : ∀ e r, mapFind m.m_entityContainers e = some r → r < m.heap.length
  member : ∀ r c, m.heap[r]? = some c →
    ∀ e, e ∈ c.m_entities ↔ mapFind m.m_entityContainers e = some r

/-- Every container object carries the flag of the manager. -/
def EnabledInv (m : ContainerManager) : Prop :=
  ∀ (r : ContainerRef) (c : ResourceContainer), m.heap[r]? = some c → c.m_enabled = m.m_enabled

/-- The registry entries point into the arena and no two of them hold the same container. -/
def RegWF (m : ContainerManager) : Prop :=
  (∀ p ∈ m.m_containers, p.2 < m.heap.length) ∧ (m.m_containers.map Prod.snd).Nodup

/-- The registry binds some name to the container. -/
def registered (m : ContainerManager) (r : ContainerRef) : Prop :=
  ∃ name, mapFind m.m_containers name = some r

/-- One call of a public operation. -/
inductive Op where
  | GetContainer (name : String)
  | MapContainer (name : String) (ids : List BusId) (pid : Pid)
  | InformEntityUpdated (entity : Entity)
  | Enable
  | Disable
  deriving DecidableEq, Repr

/-- The state after one call. -/
def step (GetEntity : BusId → Entity) (m : ContainerManager) : Op → ContainerManager
  | Op.GetContainer name => (m.GetContainer name).1
  | Op.MapContainer name ids pid => (m.MapContainer GetEntity name ids pid).1
  | Op.InformEntityUpdated entity => (m.InformEntityUpdated entity).1
  | Op.Enable => m.Enable.1
  | Op.Disable => m.Disable.1

/-- The state after a sequence of calls. -/
def run (GetEntity : BusId → Entity) (m : ContainerManager) (ops : List Op) :
    ContainerManager :=
  ops.foldl (step GetEntity) m

/-- The states that a sequence of calls reaches from a newly constructed manager. -/
def Reachable (GetEntity : BusId → Entity) (m : ContainerManager) : Prop :=
  ∃ ops, run GetEntity init ops = m

/-- One `MapContainer` call: the name, the identifiers and the process. -/
structure MapCall where
  name : String
  ids : List BusId
  pid : Pid
  deriving DecidableEq, Repr

/-- The state after a sequence of `MapContainer` calls. -/
def runMapCalls (GetEntity : BusId → Entity) (m : ContainerManager) (calls : List MapCall) :
    ContainerManager :=
  calls.foldl (fun acc c => (acc.MapContainer GetEntity c.name c.ids c.pid).1) m

end ContainerManager

/-! ## SystemManagerProxy -/

/-- The identifier of an activity (`Activity::GetId`). -/
abbrev ActivityId := Nat

/-- The type tag of a `MojObject` value (`MojObject::type`). -/
inductive MojObjectType where
  | TypeUndefined | TypeNull | TypeObject | TypeArray | TypeString | TypeBool
  | TypeDecimal | TypeInt
  deriving DecidableEq, Repr

/-- A `MojObject` value as far as `InstantiateRequirement` looks at it. -/
inductive MojObject where
  | undefined
  | null
  | object
  | array
  | string (s : String)
  | bool (b : Bool)
  | decimal
  | int (i : Int)
  deriving DecidableEq, Repr

namespace MojObject

/-- The type tag: `MojObject::type`. -/
def type : MojObject → MojObjectType
  | undefined => MojObjectType.TypeUndefined
  | null => MojObjectType.TypeNull
  | object => MojObjectType.TypeObject
  | array => MojObjectType.TypeArray
  | string _ => MojObjectType.TypeString
  | bool _ => MojObjectType.TypeBool
  | decimal => MojObjectType.TypeDecimal
  | int _ => MojObjectType.TypeInt

/-- The boolean reading: `MojObject::boolValue`.  The proxy consults it for values of type
`TypeBool` only; the coercion of the other types belongs to the object library. -/
def boolValue : MojObject → Bool
  | bool b => b
  | int i => decide (i ≠ 0)
  | string s => decide (s ≠ "")
  | _ => false

end MojObject

/-- Modelled from the spec: `RequirementCore` (Requirement.h is not among the sources), one
logical condition, given by a name and a value. -/
structure RequirementCore where
  name : String
  value : MojObject
  deriving DecidableEq, Repr

/-- Modelled from the spec: `BasicCoreListedRequirement` (Requirement.h is not among the
sources), the binding of one activity to one core, with its met flag.  A binding is unmet
when it is constructed. -/
structure Requirement where
  activity : ActivityId
  core : RequirementCore
  met : Bool
  deriving DecidableEq, Repr

/-- Modelled from the spec: `Requirement::Met` (Requirement.cpp is not among the sources),
the one-way transition to the satisfied state. -/
def Requirement.Met (r : Requirement) : Requirement := { r with met := true }

/-- Modelled from the spec: the subsystem tags of `ActivityManager` (ActivityManager.h is
not among the sources); `UI_ENABLE` is the tag of the UI-dependent activities. -/
inductive EnableTag where
  | EXTERNAL_ENABLE
  | UI_ENABLE
  deriving DecidableEq, Repr

/-- The standing bus call held in `m_bootstatus`: its address, the `subscribe` parameter
and whether the number of replies is unlimited. -/
structure MojoCall where
  url : String
  subscribe : Bool
  unlimited : Bool
  deriving DecidableEq, Repr

/-- Calls that the proxy makes on its collaborators, in the order they are made.  `MetAll rs`
is the `for_each` of `Requirement::Met` over the pending list, which holds `rs` when the
pass starts. -/
inductive ProxyEvent where
  | MetAll (rs : List Requirement)
  | AmEnable (tag : EnableTag)
  | AmDisable (tag : EnableTag)
  | Call (c : MojoCall)
  | Sleep (nsec : Nat)
  deriving DecidableEq, Repr

/-- What `BootStatusUpdate` receives: the error code (`MojErrNone` is 0), the verdict of
`MojoCall::IsPermanentFailure` on the message (external), and the field `finished` of the
response when it is there. -/
structure Delivery where
  err : Nat
  permanent : Bool
  finished : Option Bool
  deriving DecidableEq, Repr

/-- The error code of a successful delivery. -/
def MojErrNone : Nat := 0

/-- The state of a `SystemManagerProxy`: the latch `m_bootIssued`, the shared core, the
list of pending boot requirements and the subscription handle `m_bootstatus`. -/
structure SystemManagerProxy where
  m_bootIssued : Bool
  m_bootupRequirementCore : RequirementCore
  m_bootupRequirements : List Requirement
  m_bootstatus : Option MojoCall
  deriving DecidableEq, Repr

namespace SystemManagerProxy

/-- The constructor: latch clear, core ("bootup", true), nothing pending, no handle. -/
def init : SystemManagerProxy :=
  { m_bootIssued := false,
    m_bootupRequirementCore := { name := "bootup", value := MojObject.bool true },
    m_bootupRequirements := [],
    m_bootstatus := none }

/-- `SystemManagerProxy::InstantiateRequirement`.  The result is the state after the call
together with the new binding or the message of the exception thrown. -/
def InstantiateRequirement (p : SystemManagerProxy) (activity : ActivityId) (name : String)
    (value : MojObject) : SystemManagerProxy × Except String Requirement :=
  if name = "bootup" then
    if value.type = MojObjectType.TypeBool && value.boolValue then
      let req : Requirement :=
        { activity := activity, core := p.m_bootupRequirementCore, met := false }
      ({ p with m_bootupRequirements := p.m_bootupRequirements ++ [req] }, Except.ok req)
    else
      (p, Except.error
        "If 'bootup' requirement is specified, the only legal value is 'true'")
  else
    (p, Except.error "Attempt to instantiate unknown requirement")

/-- The standing call that `Enable` builds. -/
def bootStatusCall : MojoCall :=
  { url := "palm://com.palm.systemmanager/getBootStatus", subscribe := true,
    unlimited := true }

/-- `SystemManagerProxy::Enable`. -/
def Enable (p : SystemManagerProxy) : SystemManagerProxy × List ProxyEvent :=
  ({ p with m_bootstatus := some bootStatusCall }, [ProxyEvent.Call bootStatusCall])

/-- `SystemManagerProxy::Disable`. -/
def Disable (p : SystemManagerProxy) : SystemManagerProxy × List ProxyEvent :=
  ({ p with m_bootstatus := none }, [])

/-- `SystemManagerProxy::BootStatusUpdate`.  The result is none where the code dereferences
an empty `m_bootstatus` (a retry without a handle). -/
def BootStatusUpdate (p : SystemManagerProxy) (d : Delivery) :
    Option (SystemManagerProxy × List ProxyEvent) :=
  if d.err ≠ MojErrNone then
    if d.permanent then
      some ({ p with m_bootstatus := none }, [])
    else
      match p.m_bootstatus with
      | some c => some (p, [ProxyEvent.Sleep 250000000, ProxyEvent.Call c])
      | none => none
  else
    match d.finished with
    | none => some (p, [])
    | some true =>
      if !p.m_bootIssued then
        some ({ p with m_bootupRequirements := p.m_bootupRequirements.map Requirement.Met,
                       m_bootIssued := true },
          [ProxyEvent.MetAll p.m_bootupRequirements,
           ProxyEvent.AmEnable EnableTag.UI_ENABLE])
      else
        some (p, [ProxyEvent.AmEnable EnableTag.UI_ENABLE])
    | some false =>
      some ((if p.m_bootIssued then { p with m_bootIssued := false } else p),
        [ProxyEvent.AmDisable EnableTag.UI_ENABLE])

/-- Process deliveries one after the other, collecting the events of each. -/
def deliver : SystemManagerProxy → List Delivery →
    Option (SystemManagerProxy × List (List ProxyEvent))
  | p, [] => some (p, [])
  | p, d :: rest =>
    match p.BootStatusUpdate d with
    | none => none
    | some (p1, ev) =>
      match deliver p1 rest with
      | none => none
      | some (p2, evs) => some (p2, ev :: evs)

/-- The value of `finished` that a delivery reports: none for a delivery with an error and
for a response without the field. -/
def signal (d : Delivery) : Option Bool :=
  if d.err = MojErrNone then d.finished else none

/-- The rising edges of the reported value, following the words of the specification:
for each delivery, whether it reports finished=true while the previous reported value
(`prev` at the start) was false.  Deliveries that report nothing are no edge and do not
change the previous value. -/
def risingEdges : Bool → List Delivery → List Bool
  | _, [] => []
  | prev, d :: rest =>
    match signal d with
    | none => false :: risingEdges prev rest
    | some b => (b && !prev) :: risingEdges b rest

/-- The last reported value, following the words of the specification (`prev` when no
delivery reports one). -/
def lastFinished : Bool → List Delivery → Bool
  | prev, [] => prev
  | prev, d :: rest =>
    match signal d with
    | none => lastFinished prev rest
    | some b => lastFinished b rest

/-- An error-free delivery that carries the field `finished`. -/
def finishedDelivery (b : Bool) : Delivery :=
  { err := MojErrNone, permanent := false, finished := some b }

/-- The satisfaction passes among the events, each with the requirements it ranges over. -/
def passes : List ProxyEvent → List (List Requirement)
  | [] => []
  | ProxyEvent.MetAll rs :: rest => rs :: passes rest
  | _ :: rest => passes rest

/-- The scheduler hooks among the events. -/
def hookCalls : List ProxyEvent → List ProxyEvent
  | [] => []
  | ProxyEvent.AmEnable tag :: rest => ProxyEvent.AmEnable tag :: hookCalls rest
  | ProxyEvent.AmDisable tag :: rest => ProxyEvent.AmDisable tag :: hookCalls rest
  | _ :: rest => hookCalls rest

/-- The issues of the standing call among the events. -/
def issuedCalls : List ProxyEvent → List MojoCall
  | [] => []
  | ProxyEvent.Call c :: rest => c :: issuedCalls rest
  | _ :: rest => issuedCalls rest

end SystemManagerProxy

end ActivityManager

/-! # Theorems -/

namespace ActivityManager

/-! ## Association maps and the arena -/

theorem mapFind_mapSet {κ ν : Type} [DecidableEq κ] (l : List (κ × ν)) (k q : κ) (v : ν) :
    mapFind (mapSet l k v) q = if k = q then some v else mapFind l q := by
  induction l with
  | nil => simp [mapSet, mapFind]
  | cons hd tl ih =>
    obtain ⟨k0, v0⟩ := hd
    by_cases h0 : k0 = k
    · subst h0
      by_cases hq : k0 = q <;> simp [mapSet, mapFind, hq]
    · by_cases hq : k0 = q
      · subst hq
        have : ¬ k = k0 := fun h => h0 h.symm
        simp [mapSet, mapFind, h0, this]
      · simp [mapSet, mapFind, h0, hq, ih]

theorem mapSet_of_mapFind_none {κ ν : Type} [DecidableEq κ] (l : List (κ × ν)) (k : κ)
    (v : ν) (h : mapFind l k = none) : mapSet l k v = l ++ [(k, v)] := by
  induction l with
  | nil => rfl
  | cons hd tl ih =>
    obtain ⟨k0, v0⟩ := hd
    by_cases h0 : k0 = k
    · simp [mapFind, h0] at h
    · simp only [mapFind, h0, if_false] at h
      simp [mapSet, h0, ih h]

theorem length_heapModify (f : ResourceContainer → ResourceContainer)
    (h : List ResourceContainer) (r : ContainerRef) :
    (heapModify f h r).length = h.length := by
  induction h generalizing r with
  | nil => rfl
  | cons c rest ih =>
    cases r with
    | zero => rfl
    | succ r => simp [heapModify, ih]

theorem getElem?_heapModify (f : ResourceContainer → ResourceContainer)
    (h : List ResourceContainer) (r i : ContainerRef) :
    (heapModify f h r)[i]? = if i = r then (h[i]?).map f else h[i]? := by
  induction h generalizing r i with
  | nil => simp [heapModify]
  | cons c rest ih =>
    cases r with
    | zero =>
      cases i with
      | zero => simp [heapModify]
      | succ i => simp [heapModify]
    | succ r =>
      cases i with
      | zero => simp [heapModify]
      | succ i => simp [heapModify, ih]

/-! ## The container manager: preservation of the invariant -/

namespace ContainerManager

theorem mem_AddEntity (e x : Entity) (c : ResourceContainer) :
    x ∈ (ResourceContainer.AddEntity e c).m_entities ↔ x ∈ c.m_entities ∨ x = e := by
  unfold ResourceContainer.AddEntity
  by_cases h : e ∈ c.m_entities
  · simp only [h, if_true]
    constructor
    · exact fun hx => Or.inl hx
    · rintro (hx | hx)
      · exact hx
      · exact hx ▸ h
  · simp [h]

theorem mem_RemoveEntity (e x : Entity) (c : ResourceContainer) :
    x ∈ (ResourceContainer.RemoveEntity e c).m_entities ↔ x ∈ c.m_entities ∧ x ≠ e := by
  simp [ResourceContainer.RemoveEntity]

theorem name_AddEntity (e : Entity) (c : ResourceContainer) :
    (ResourceContainer.AddEntity e c).m_name = c.m_name := by
  unfold ResourceContainer.AddEntity
  split <;> rfl

theorem inv_init : Inv init :=
  { regValid := by intro name r h; simp [init, mapFind] at h
    heapReg := by intro r c h; simp [init] at h
    tabValid := by intro e r h; simp [init, mapFind] at h
    member := by intro r c h; simp [init] at h }

/-- A method that keeps the name and the member set keeps the invariant. -/
theorem inv_onContainer (m : ContainerManager) (r : ContainerRef)
    (f : ResourceContainer → ResourceContainer) (hn : ∀ c, (f c).m_name = c.m_name)
    (he : ∀ c, (f c).m_entities = c.m_entities) (hinv : Inv m) :
    Inv (m.onContainer r f) := by
  have key : ∀ (i : ContainerRef) (c' : ResourceContainer),
      (m.onContainer r f).heap[i]? = some c' →
      ∃ c : ResourceContainer,
        m.heap[i]? = some c ∧ c'.m_name = c.m_name ∧ c'.m_entities = c.m_entities := by
    intro i c' h
    simp only [onContainer, getElem?_heapModify] at h
    by_cases hi : i = r
    · simp only [hi, if_true, Option.map_eq_some'] at h
      obtain ⟨c, hc, rfl⟩ := h
      exact ⟨c, by rw [hi]; exact hc, hn c, he c⟩
    · simp only [hi, if_false] at h
      exact ⟨c', h, rfl, rfl⟩
  constructor
  · intro name i h
    obtain ⟨c, hc, hname⟩ := hinv.regValid name i h
    simp only [onContainer, getElem?_heapModify]
    by_cases hi : i = r
    · simp only [hi, if_true]
      rw [hi] at hc
      exact ⟨f c, by simp [hc], by rw [hn]; exact hname⟩
    · simp only [hi, if_false]
      exact ⟨c, hc, hname⟩
  · intro i c' h
    obtain ⟨c, hc, h1, _⟩ := key i c' h
    rw [h1]
    exact hinv.heapReg i c hc
  · intro e i h
    simp only [onContainer, length_heapModify]
    exact hinv.tabValid e i h
  · intro i c' h e
    obtain ⟨c, hc, _, h2⟩ := key i c' h
    rw [h2]
    exact hinv.member i c hc e

theorem lt_of_heap_some {h : List ResourceContainer} {r : ContainerRef}
    {c : ResourceContainer} (hc : h[r]? = some c) : r < h.length := by
  obtain ⟨hlt, _⟩ := List.getElem?_eq_some.1 hc
  exact hlt

theorem heap_some_of_lt {h : List ResourceContainer} {r : ContainerRef}
    (hlt : r < h.length) : ∃ c, h[r]? = some c :=
  ⟨h[r], List.getElem?_eq_some.2 ⟨hlt, rfl⟩⟩

/-- What `GetContainer` does to a consistent state: the state stays consistent, the name is
registered to the returned reference, the table is untouched, and no registry binding and
no container object changes. -/
theorem GetContainer_spec (m : ContainerManager) (name : String) (hinv : Inv m) :
    Inv (m.GetContainer name).1 ∧
    mapFind (m.GetContainer name).1.m_containers name = some (m.GetContainer name).2 ∧
    (m.GetContainer name).2 < (m.GetContainer name).1.heap.length ∧
    (m.GetContainer name).1.m_entityContainers = m.m_entityContainers ∧
    (∀ n r, mapFind m.m_containers n = some r →
      mapFind (m.GetContainer name).1.m_containers n = some r) ∧
    (∀ (r : ContainerRef) (c : ResourceContainer), m.heap[r]? = some c →
      (m.GetContainer name).1.heap[r]? = some c) := by
  cases hf : mapFind m.m_containers name with
  | some found =>
    have hg : m.GetContainer name = (m, found) := by simp [GetContainer, hf]
    rw [hg]
    obtain ⟨c, hc, _⟩ := hinv.regValid name found hf
    exact ⟨hinv, hf, lt_of_heap_some hc, rfl, fun _ _ h => h, fun _ _ h => h⟩
  | none =>
    have hg : m.GetContainer name =
        ({ m with heap := m.heap ++ [m.CreateContainer name],
                  m_containers := mapSet m.m_containers name m.heap.length },
          m.heap.length) := by
      simp [GetContainer, hf]
    rw [hg]
    dsimp only
    have hne : ∀ n r, mapFind m.m_containers n = some r → name ≠ n := by
      intro n r h hn
      rw [← hn, hf] at h
      exact Option.noConfusion h
    have hold : ∀ (r : ContainerRef) (c : ResourceContainer), m.heap[r]? = some c →
        (m.heap ++ [m.CreateContainer name])[r]? = some c := by
      intro r c h
      rw [List.getElem?_append_left (lt_of_heap_some h)]
      exact h
    have hnew : ∀ (r : ContainerRef) (c : ResourceContainer),
        (m.heap ++ [m.CreateContainer name])[r]? = some c →
        m.heap[r]? = some c ∨ (r = m.heap.length ∧ c = m.CreateContainer name) := by
      intro r c h
      by_cases hr : r < m.heap.length
      · rw [List.getElem?_append_left hr] at h
        exact Or.inl h
      · have hlen := lt_of_heap_some h
        simp only [List.length_append, List.length_singleton] at hlen
        have hr2 : r = m.heap.length :=
          Nat.le_antisymm (Nat.lt_succ_iff.1 hlen) (Nat.not_lt.1 hr)
        subst hr2
        rw [List.getElem?_concat_length] at h
        exact Or.inr ⟨rfl, (Option.some.inj h).symm⟩
    refine ⟨?_, ?_, ?_, rfl, ?_, hold⟩
    · constructor
      · intro n r h
        simp only [mapFind_mapSet] at h
        by_cases hn : name = n
        · simp only [hn, if_true] at h
          have hr : m.heap.length = r := Option.some.inj h
          subst hr
          exact ⟨m.CreateContainer name, List.getElem?_concat_length _ _, hn⟩
        · simp only [hn, if_false] at h
          obtain ⟨c, hc, hcn⟩ := hinv.regValid n r h
          exact ⟨c, hold r c hc, hcn⟩
      · intro r c h
        simp only [mapFind_mapSet]
        rcases hnew r c h with hc | ⟨hr, hc⟩
        · have := hinv.heapReg r c hc
          simp only [hne _ _ this, if_false]
          exact this
        · subst hc
          simp [CreateContainer, hr]
      · intro e r h
        have := hinv.tabValid e r h
        simp only [List.length_append, List.length_singleton]
        exact Nat.lt_succ_of_lt this
      · intro r c h e
        rcases hnew r c h with hc | ⟨hr, hc⟩
        · exact hinv.member r c hc e
        · subst hc
          constructor
          · intro he
            simp [CreateContainer] at he
          · intro he
            have := hinv.tabValid e r he
            rw [hr] at this
            exact absurd this (Nat.lt_irrefl _)
    · simp [mapFind_mapSet]
    · simp
    · intro n r h
      simp only [mapFind_mapSet, hne n r h, if_false]
      exact h

theorem frame_AddEntity (e : Entity) (c : ResourceContainer) :
    (ResourceContainer.AddEntity e c).m_pids = c.m_pids ∧
    (ResourceContainer.AddEntity e c).m_enabled = c.m_enabled := by
  unfold ResourceContainer.AddEntity
  split <;> exact ⟨rfl, rfl⟩

/-- The table after the body of the loop: the entity is bound to the target, every other
binding is as before. -/
theorem MapEntity_table (container : ContainerRef) (m : ContainerManager) (e : Entity)
    (x : Entity) :
    mapFind (MapEntity container m e).1.m_entityContainers x =
      if e = x then some container else mapFind m.m_entityContainers x := by
  cases hf : mapFind m.m_entityContainers e with
  | none => simp [MapEntity, hf, onContainer, mapFind_mapSet]
  | some cur =>
    by_cases hcur : cur = container
    · simp only [MapEntity, hf, hcur, ne_eq, not_true_eq_false, if_false]
      by_cases hx : e = x
      · rw [← hx, hf, hcur]
        simp
      · simp [hx]
    · simp [MapEntity, hf, hcur, onContainer, mapFind_mapSet]

/-- The registry, the size of the arena and the flag after the body of the loop. -/
theorem MapEntity_frame (container : ContainerRef) (m : ContainerManager) (e : Entity) :
    (MapEntity container m e).1.m_containers = m.m_containers ∧
    (MapEntity container m e).1.heap.length = m.heap.length ∧
    (MapEntity container m e).1.m_enabled = m.m_enabled := by
  cases hf : mapFind m.m_entityContainers e with
  | none => simp [MapEntity, hf, onContainer, length_heapModify]
  | some cur =>
    by_cases hcur : cur = container
    · simp [MapEntity, hf, hcur]
    · simp [MapEntity, hf, hcur, onContainer, length_heapModify]

/-- The container objects after the body of the loop, in a consistent state with a valid
target: names, processes and flags are as before, and the member sets differ from the old
ones only in the entity, which is now a member of the target and of nothing else. -/
theorem MapEntity_heap (container : ContainerRef) (m : ContainerManager) (e : Entity)
    (hinv : Inv m) (r : ContainerRef) (c' : ResourceContainer)
    (h : (MapEntity container m e).1.heap[r]? = some c') :
    ∃ c : ResourceContainer, m.heap[r]? = some c ∧ c'.m_name = c.m_name ∧
      c'.m_pids = c.m_pids ∧ c'.m_enabled = c.m_enabled ∧
      ∀ x, x ∈ c'.m_entities ↔ if e = x then r = container else x ∈ c.m_entities := by
  cases hf : mapFind m.m_entityContainers e with
  | none =>
    simp only [MapEntity, hf, onContainer, getElem?_heapModify] at h
    by_cases hr : r = container
    · simp only [hr, if_true, Option.map_eq_some'] at h
      obtain ⟨c, hc, rfl⟩ := h
      refine ⟨c, by rw [hr]; exact hc, name_AddEntity e c, (frame_AddEntity e c).1,
        (frame_AddEntity e c).2, ?_⟩
      intro x
      rw [mem_AddEntity]
      by_cases hx : e = x
      · simp [hx, hr]
      · have hx' : ¬ x = e := fun hh => hx hh.symm
        simp [hx, hx']
    · simp only [hr, if_false] at h
      refine ⟨c', h, rfl, rfl, rfl, ?_⟩
      intro x
      by_cases hx : e = x
      · subst hx
        simp only [if_true, hr, iff_false]
        intro hmem
        have := (hinv.member r c' h e).1 hmem
        rw [hf] at this
        exact Option.noConfusion this
      · simp [hx]
  | some cur =>
    by_cases hcur : cur = container
    · simp only [MapEntity, hf, hcur, ne_eq, not_true_eq_false, if_false] at h
      refine ⟨c', h, rfl, rfl, rfl, ?_⟩
      intro x
      by_cases hx : e = x
      · subst hx
        simp only [if_true]
        rw [hinv.member r c' h e, hf, hcur]
        constructor
        · intro hh
          exact (Option.some.inj hh).symm
        · intro hh
          rw [hh]
      · simp [hx]
    · simp only [MapEntity, hf, hcur, ne_eq, not_false_eq_true, if_true, onContainer,
        getElem?_heapModify] at h
      by_cases hr : r = container
      · have hrc : ¬ r = cur := fun hh => hcur (hh.symm.trans hr)
        simp only [hr, if_true, Option.map_eq_some'] at h
        obtain ⟨c, hc, rfl⟩ := h
        have hcc : ¬ container = cur := fun hh => hcur hh.symm
        simp only [hcc, if_false] at hc
        refine ⟨c, by rw [hr]; exact hc, name_AddEntity e c, (frame_AddEntity e c).1,
          (frame_AddEntity e c).2, ?_⟩
        intro x
        rw [mem_AddEntity]
        by_cases hx : e = x
        · simp [hx, hr]
        · have hx' : ¬ x = e := fun hh => hx hh.symm
          simp [hx, hx']
      · simp only [hr, if_false] at h
        by_cases hrc : r = cur
        · simp only [hrc, if_true, Option.map_eq_some'] at h
          obtain ⟨c, hc, rfl⟩ := h
          refine ⟨c, by rw [hrc]; exact hc, rfl, rfl, rfl, ?_⟩
          intro x
          rw [mem_RemoveEntity]
          by_cases hx : e = x
          · subst hx
            simp [hr]
          · have hx' : ¬ x = e := fun hh => hx hh.symm
            simp [hx, hx']
        · simp only [hrc, if_false] at h
          refine ⟨c', h, rfl, rfl, rfl, ?_⟩
          intro x
          by_cases hx : e = x
          · subst hx
            simp only [if_true, hr, iff_false]
            intro hmem
            have := (hinv.member r c' h e).1 hmem
            rw [hf] at this
            exact hrc (Option.some.inj this).symm
          · simp [hx]

/-- The body of the loop keeps the invariant when the target is a valid reference. -/
theorem MapEntity_inv (container : ContainerRef) (m : ContainerManager) (e : Entity)
    (hinv : Inv m) (hc : container < m.heap.length) : Inv (MapEntity container m e).1 := by
  obtain ⟨hreg, hlen, _⟩ := MapEntity_frame container m e
  constructor
  · intro name r h
    rw [hreg] at h
    obtain ⟨c, hcr, hname⟩ := hinv.regValid name r h
    have hlt : r < (MapEntity container m e).1.heap.length := by
      rw [hlen]
      exact lt_of_heap_some hcr
    obtain ⟨c', hc'⟩ := heap_some_of_lt hlt
    obtain ⟨c0, h0, hn0, _⟩ := MapEntity_heap container m e hinv r c' hc'
    rw [hcr] at h0
    have hcc : c = c0 := Option.some.inj h0
    refine ⟨c', hc', ?_⟩
    rw [hn0, ← hcc]
    exact hname
  · intro r c' h
    obtain ⟨c, hcr, hn, _⟩ := MapEntity_heap container m e hinv r c' h
    rw [hreg, hn]
    exact hinv.heapReg r c hcr
  · intro x r h
    rw [MapEntity_table] at h
    rw [hlen]
    by_cases hx : e = x
    · simp only [hx, if_true] at h
      rw [← Option.some.inj h]
      exact hc
    · simp only [hx, if_false] at h
      exact hinv.tabValid x r h
  · intro r c' h x
    obtain ⟨c, hcr, _, _, _, hmem⟩ := MapEntity_heap container m e hinv r c' h
    rw [hmem x, MapEntity_table]
    by_cases hx : e = x
    · simp only [hx, if_true]
      constructor
      · intro hh
        rw [hh]
      · intro hh
        exact (Option.some.inj hh).symm
    · simp only [hx, if_false]
      exact hinv.member r c hcr x

/-- The loop of `MapContainer` on a consistent state with a valid target: the state stays
consistent, the registry, the size of the arena and the flag are as before, every resolved
entity is bound to the target and every other binding of the table is as before. -/
theorem MapEntities_spec (GetEntity : BusId → Entity) (container : ContainerRef)
    (ids : List BusId) (m : ContainerManager) (hinv : Inv m)
    (hc : container < m.heap.length) :
    Inv (MapEntities GetEntity container m ids).1 ∧
    (MapEntities GetEntity container m ids).1.m_containers = m.m_containers ∧
    (MapEntities GetEntity container m ids).1.heap.length = m.heap.length ∧
    (MapEntities GetEntity container m ids).1.m_enabled = m.m_enabled ∧
    ∀ x, mapFind (MapEntities GetEntity container m ids).1.m_entityContainers x =
      if x ∈ ids.map GetEntity then some container else mapFind m.m_entityContainers x := by
  induction ids generalizing m with
  | nil => simp [MapEntities, hinv]
  | cons id rest ih =>
    obtain ⟨hreg, hlen, hen⟩ := MapEntity_frame container m (GetEntity id)
    have hinv1 := MapEntity_inv container m (GetEntity id) hinv hc
    have hc1 : container < (MapEntity container m (GetEntity id)).1.heap.length := by
      rw [hlen]
      exact hc
    obtain ⟨i1, i2, i3, i4, i5⟩ := ih (MapEntity container m (GetEntity id)).1 hinv1 hc1
    simp only [MapEntities]
    refine ⟨i1, i2.trans hreg, i3.trans hlen, i4.trans hen, ?_⟩
    intro x
    rw [i5 x, MapEntity_table]
    by_cases hx : x ∈ rest.map GetEntity
    · have : x ∈ (id :: rest).map GetEntity := by
        rw [List.map_cons]
        exact List.mem_cons_of_mem _ hx
      simp only [hx, this, if_true]
    · simp only [hx, if_false]
      by_cases hx2 : GetEntity id = x
      · have : x ∈ (id :: rest).map GetEntity := by
          rw [List.map_cons, ← hx2]
          exact List.mem_cons_self _ _
        simp only [hx2, this, if_true]
      · have : ¬ x ∈ (id :: rest).map GetEntity := by
          rw [List.map_cons]
          intro hh
          rcases List.mem_cons.1 hh with h1 | h1
          · exact hx2 h1.symm
          · exact hx h1
        simp only [hx2, this, if_false]

theorem name_MapProcess (pid : Pid) (c : ResourceContainer) :
    (ResourceContainer.MapProcess pid c).m_name = c.m_name := by
  unfold ResourceContainer.MapProcess
  split <;> rfl

theorem entities_MapProcess (pid : Pid) (c : ResourceContainer) :
    (ResourceContainer.MapProcess pid c).m_entities = c.m_entities := by
  unfold ResourceContainer.MapProcess
  split <;> rfl

/-- One `MapContainer` call on a consistent state: the state stays consistent, the name is
registered, every resolved entity is bound to the container of the name, every other
binding of the table is as before, and no registry binding changes. -/
theorem MapContainer_spec (GetEntity : BusId → Entity) (m : ContainerManager)
    (name : String) (ids : List BusId) (pid : Pid) (hinv : Inv m) :
    Inv (m.MapContainer GetEntity name ids pid).1 ∧
    (∃ r, mapFind (m.MapContainer GetEntity name ids pid).1.m_containers name = some r ∧
      r = (m.GetContainer name).2 ∧
      ∀ x, mapFind (m.MapContainer GetEntity name ids pid).1.m_entityContainers x =
        if x ∈ ids.map GetEntity then some r else mapFind m.m_entityContainers x) ∧
    (∀ n r, mapFind m.m_containers n = some r →
      mapFind (m.MapContainer GetEntity name ids pid).1.m_containers n = some r) := by
  obtain ⟨g1, g2, g3, g4, g5, _⟩ := GetContainer_spec m name hinv
  obtain ⟨l1, l2, _, _, l5⟩ :=
    MapEntities_spec GetEntity (m.GetContainer name).2 ids (m.GetContainer name).1 g1 g3
  refine ⟨?_, ⟨(m.GetContainer name).2, ?_, rfl, ?_⟩, ?_⟩
  · exact inv_onContainer _ _ _ (name_MapProcess pid) (entities_MapProcess pid) l1
  · simp only [MapContainer, onContainer]
    rw [l2]
    exact g2
  · intro x
    simp only [MapContainer, onContainer]
    rw [l5 x, g4]
  · intro n r h
    simp only [MapContainer, onContainer]
    rw [l2]
    exact g5 n r h

theorem inv_foldl_onContainer (f : ResourceContainer → ResourceContainer)
    (hn : ∀ c, (f c).m_name = c.m_name) (he : ∀ c, (f c).m_entities = c.m_entities)
    (refs : List ContainerRef) (m : ContainerManager) (hinv : Inv m) :
    Inv (refs.foldl (fun acc r => acc.onContainer r f) m) := by
  induction refs generalizing m with
  | nil => exact hinv
  | cons r rest ih => exact ih _ (inv_onContainer m r f hn he hinv)

theorem inv_set_enabled (m : ContainerManager) (b : Bool) (hinv : Inv m) :
    Inv { m with m_enabled := b } :=
  { regValid := hinv.regValid
    heapReg := hinv.heapReg
    tabValid := hinv.tabValid
    member := hinv.member }

theorem foldl_onContainer_frame (f : ResourceContainer → ResourceContainer)
    (refs : List ContainerRef) (m : ContainerManager) :
    (refs.foldl (fun acc r => acc.onContainer r f) m).m_containers = m.m_containers ∧
    (refs.foldl (fun acc r => acc.onContainer r f) m).m_entityContainers
      = m.m_entityContainers ∧
    (refs.foldl (fun acc r => acc.onContainer r f) m).m_enabled = m.m_enabled := by
  induction refs generalizing m with
  | nil => exact ⟨rfl, rfl, rfl⟩
  | cons r rest ih =>
    obtain ⟨h1, h2, h3⟩ := ih (m.onContainer r f)
    exact ⟨h1, h2, h3⟩

theorem inv_Enable (m : ContainerManager) (hinv : Inv m) : Inv m.Enable.1 := by
  unfold Enable broadcast
  exact inv_foldl_onContainer ResourceContainer.Enable (fun _ => rfl) (fun _ => rfl) _ _
    (inv_set_enabled m true hinv)

theorem inv_Disable (m : ContainerManager) (hinv : Inv m) : Inv m.Disable.1 := by
  unfold Disable broadcast
  exact inv_foldl_onContainer ResourceContainer.Disable (fun _ => rfl) (fun _ => rfl) _ _
    (inv_set_enabled m false hinv)

theorem InformEntityUpdated_state (m : ContainerManager) (e : Entity) :
    (m.InformEntityUpdated e).1 = m := by
  unfold InformEntityUpdated
  split <;> rfl

/-- Every public operation keeps the invariant. -/
theorem inv_step (GetEntity : BusId → Entity) (m : ContainerManager) (op : Op)
    (hinv : Inv m) : Inv (step GetEntity m op) := by
  cases op with
  | GetContainer name => exact (GetContainer_spec m name hinv).1
  | MapContainer name ids pid => exact (MapContainer_spec GetEntity m name ids pid hinv).1
  | InformEntityUpdated e =>
    simp only [step, InformEntityUpdated_state]
    exact hinv
  | Enable => exact inv_Enable m hinv
  | Disable => exact inv_Disable m hinv

theorem inv_run (GetEntity : BusId → Entity) (ops : List Op) (m : ContainerManager)
    (hinv : Inv m) : Inv (run GetEntity m ops) := by
  induction ops generalizing m with
  | nil => exact hinv
  | cons op rest ih => exact ih _ (inv_step GetEntity m op hinv)

/-- Every reachable state is consistent. -/
theorem inv_of_reachable (GetEntity : BusId → Entity) (m : ContainerManager)
    (h : Reachable GetEntity m) : Inv m := by
  obtain ⟨ops, rfl⟩ := h
  exact inv_run GetEntity ops init inv_init

theorem inv_runMapCalls (GetEntity : BusId → Entity) (calls : List MapCall)
    (m : ContainerManager) (hinv : Inv m) : Inv (runMapCalls GetEntity m calls) := by
  induction calls generalizing m with
  | nil => exact hinv
  | cons c rest ih =>
    exact ih _ (MapContainer_spec GetEntity m c.name c.ids c.pid hinv).1

/-- Calls that do not name the entity leave its binding alone, and no call changes a
registry binding. -/
theorem runMapCalls_frame (GetEntity : BusId → Entity) (calls : List MapCall)
    (m : ContainerManager) (hinv : Inv m) :
    (∀ n r, mapFind m.m_containers n = some r →
      mapFind (runMapCalls GetEntity m calls).m_containers n = some r) ∧
    (∀ e, (∀ c ∈ calls, ¬ e ∈ c.ids.map GetEntity) →
      mapFind (runMapCalls GetEntity m calls).m_entityContainers e
        = mapFind m.m_entityContainers e) := by
  induction calls generalizing m with
  | nil => exact ⟨fun _ _ h => h, fun _ _ => rfl⟩
  | cons c rest ih =>
    obtain ⟨s1, ⟨r0, _, _, s3⟩, s4⟩ := MapContainer_spec GetEntity m c.name c.ids c.pid hinv
    obtain ⟨i1, i2⟩ := ih (m.MapContainer GetEntity c.name c.ids c.pid).1 s1
    constructor
    · intro n r h
      exact i1 n r (s4 n r h)
    · intro e he
      have hnot : ¬ e ∈ c.ids.map GetEntity := he c (List.mem_cons_self _ _)
      have h1 := i2 e (fun c' hc' => he c' (List.mem_cons_of_mem _ hc'))
      simp only [runMapCalls, List.foldl_cons] at h1 ⊢
      rw [h1, s3 e]
      simp only [hnot, if_false]

theorem GetContainer_table (m : ContainerManager) (name : String) :
    (m.GetContainer name).1.m_entityContainers = m.m_entityContainers := by
  unfold GetContainer
  split <;> rfl

/-- The calls of a `MapContainer` with one identifier whose entity is bound to another
container than the target. -/
theorem MapContainer_events_of_move (GetEntity : BusId → Entity) (m : ContainerManager)
    (name : String) (id : BusId) (pid : Pid) (cur : ContainerRef)
    (hf : mapFind m.m_entityContainers (GetEntity id) = some cur)
    (hne : ¬ cur = (m.GetContainer name).2) :
    (m.MapContainer GetEntity name [id] pid).2 =
      [Event.RemoveEntity cur (GetEntity id), Event.UpdatePriority cur,
       Event.AddEntity (m.GetContainer name).2 (GetEntity id),
       Event.UpdatePriority (m.GetContainer name).2,
       Event.MapProcess (m.GetContainer name).2 pid] := by
  have hf2 : mapFind (m.GetContainer name).1.m_entityContainers (GetEntity id) = some cur := by
    rw [GetContainer_table]
    exact hf
  simp only [MapContainer, MapEntities, MapEntity, hf2, ne_eq, hne, not_false_eq_true,
    if_true, List.append_nil, List.cons_append, List.nil_append]

/-! ## The container manager: the claims -/

/-- C1: after any sequence of `MapContainer` calls on a newly constructed manager, an entity
that some call names is recorded in the table with the container registered under the name
of the last call that names it; the entity is a member of that container and of no other
container object.  The sequence is split at the last call `c` that names the entity:
`pre` comes before it and no call of `post` names the entity. -/
theorem c1_last_mapping_wins (GetEntity : BusId → Entity) (pre post : List MapCall)
    (c : MapCall) (e : Entity) (hin : e ∈ c.ids.map GetEntity)
    (hpost : ∀ c' ∈ post, ¬ e ∈ c'.ids.map GetEntity) :
    ∃ (r : ContainerRef) (obj : ResourceContainer),
      mapFind (runMapCalls GetEntity init (pre ++ c :: post)).m_containers c.name = some r ∧
      (runMapCalls GetEntity init (pre ++ c :: post)).heap[r]? = some obj ∧
      obj.m_name = c.name ∧
      mapFind (runMapCalls GetEntity init (pre ++ c :: post)).m_entityContainers e = some r ∧
      e ∈ obj.m_entities ∧
      ∀ r', isMember (runMapCalls GetEntity init (pre ++ c :: post)) r' e → r' = r := by
  have hsplit : runMapCalls GetEntity init (pre ++ c :: post) =
      runMapCalls GetEntity
        ((runMapCalls GetEntity init pre).MapContainer GetEntity c.name c.ids c.pid).1
        post := by
    simp [runMapCalls, List.foldl_append]
  have hpre : Inv (runMapCalls GetEntity init pre) := inv_runMapCalls GetEntity pre init inv_init
  obtain ⟨s1, ⟨r, s2, _, s3⟩, _⟩ :=
    MapContainer_spec GetEntity (runMapCalls GetEntity init pre) c.name c.ids c.pid hpre
  obtain ⟨f1, f2⟩ := runMapCalls_frame GetEntity post _ s1
  have hfin : Inv (runMapCalls GetEntity init (pre ++ c :: post)) := by
    rw [hsplit]
    exact inv_runMapCalls GetEntity post _ s1
  have hreg : mapFind (runMapCalls GetEntity init (pre ++ c :: post)).m_containers c.name
      = some r := by
    rw [hsplit]
    exact f1 c.name r s2
  have htab : mapFind (runMapCalls GetEntity init (pre ++ c :: post)).m_entityContainers e
      = some r := by
    rw [hsplit, f2 e hpost, s3 e]
    simp only [hin, if_true]
  obtain ⟨obj, hobj, hname⟩ := hfin.regValid c.name r hreg
  refine ⟨r, obj, hreg, hobj, hname, htab, (hfin.member r obj hobj e).2 htab, ?_⟩
  intro r' hmem
  obtain ⟨c', hc', he'⟩ := hmem
  have := (hfin.member r' c' hc' e).1 he'
  rw [htab] at this
  exact (Option.some.inj this).symm

/-- The statement of C1 for the calls ("A", [1]), ("B", [1, 2]), ("A", [2]) and entity 1,
which the second call names last. -/
theorem c1_last_mapping_wins_witness :
    ∃ (r : ContainerRef) (obj : ResourceContainer),
      mapFind (runMapCalls id init
        ([⟨"A", [1], 10⟩] ++ ⟨"B", [1, 2], 11⟩ :: [⟨"A", [2], 12⟩])).m_containers
          (⟨"B", [1, 2], 11⟩ : MapCall).name = some r ∧
      (runMapCalls id init
        ([⟨"A", [1], 10⟩] ++ ⟨"B", [1, 2], 11⟩ :: [⟨"A", [2], 12⟩])).heap[r]? = some obj ∧
      obj.m_name = (⟨"B", [1, 2], 11⟩ : MapCall).name ∧
      mapFind (runMapCalls id init
        ([⟨"A", [1], 10⟩] ++ ⟨"B", [1, 2], 11⟩ :: [⟨"A", [2], 12⟩])).m_entityContainers 1
          = some r ∧
      1 ∈ obj.m_entities ∧
      ∀ r', isMember (runMapCalls id init
        ([⟨"A", [1], 10⟩] ++ ⟨"B", [1, 2], 11⟩ :: [⟨"A", [2], 12⟩])) r' 1 → r' = r :=
  c1_last_mapping_wins id [⟨"A", [1], 10⟩] [⟨"A", [2], 12⟩] ⟨"B", [1, 2], 11⟩ 1
    (by decide) (by decide)

/-- C2: in every state that a sequence of `GetContainer`, `MapContainer`,
`InformEntityUpdated`, `Enable` and `Disable` calls reaches from a newly constructed
manager, an entity is a member of a container object exactly when the table records that
container for the entity; hence an entity is a member of at most one container. -/
theorem c2_membership_matches_table (GetEntity : BusId → Entity) (m : ContainerManager)
    (hreach : Reachable GetEntity m) :
    (∀ r e, isMember m r e ↔ mapFind m.m_entityContainers e = some r) ∧
    (∀ e r1 r2, isMember m r1 e → isMember m r2 e → r1 = r2) := by
  have hinv := inv_of_reachable GetEntity m hreach
  have h1 : ∀ r e, isMember m r e ↔ mapFind m.m_entityContainers e = some r := by
    intro r e
    constructor
    · rintro ⟨c, hc, he⟩
      exact (hinv.member r c hc e).1 he
    · intro h
      obtain ⟨c, hc⟩ := heap_some_of_lt (hinv.tabValid e r h)
      exact ⟨c, hc, (hinv.member r c hc e).2 h⟩
  refine ⟨h1, ?_⟩
  intro e r1 r2 m1 m2
  have a := (h1 r1 e).1 m1
  have b := (h1 r2 e).1 m2
  rw [a] at b
  exact Option.some.inj b

/-- The statement of C2 at the state after mapping entity 1 into "A", enabling, and mapping
entities 1 and 2 into "B". -/
theorem c2_membership_matches_table_witness :
    (∀ r e, isMember (run id init
        [Op.MapContainer "A" [1] 10, Op.Enable, Op.MapContainer "B" [1, 2] 11]) r e ↔
      mapFind (run id init
        [Op.MapContainer "A" [1] 10, Op.Enable, Op.MapContainer "B" [1, 2] 11]
        ).m_entityContainers e = some r) ∧
    (∀ e r1 r2,
      isMember (run id init
        [Op.MapContainer "A" [1] 10, Op.Enable, Op.MapContainer "B" [1, 2] 11]) r1 e →
      isMember (run id init
        [Op.MapContainer "A" [1] 10, Op.Enable, Op.MapContainer "B" [1, 2] 11]) r2 e →
      r1 = r2) :=
  c2_membership_matches_table id _ ⟨_, rfl⟩

/-- C6: in a reachable state, for distinct names A and B, `MapContainer(A, [id], p)`
followed by `MapContainer(B, [id], p)` leaves the entity of `id` outside the member set of
A's container and inside the member set of B's container, with the table recording B's
container.  The first call triggers the priority recomputation of A's container; the
second call makes exactly the calls: remove the entity from A's container, recompute A's
priority, add the entity to B's container, recompute B's priority, map the process. -/
theorem c6_remap_moves_entity (GetEntity : BusId → Entity) (m : ContainerManager)
    (hreach : Reachable GetEntity m) (A B : String) (hAB : A ≠ B) (id : BusId) (p : Pid) :
    ∃ rA rB : ContainerRef,
      mapFind ((m.MapContainer GetEntity A [id] p).1.MapContainer GetEntity B [id] p
        ).1.m_containers A = some rA ∧
      mapFind ((m.MapContainer GetEntity A [id] p).1.MapContainer GetEntity B [id] p
        ).1.m_containers B = some rB ∧
      rA ≠ rB ∧
      ¬ isMember ((m.MapContainer GetEntity A [id] p).1.MapContainer GetEntity B [id] p).1
        rA (GetEntity id) ∧
      isMember ((m.MapContainer GetEntity A [id] p).1.MapContainer GetEntity B [id] p).1
        rB (GetEntity id) ∧
      mapFind ((m.MapContainer GetEntity A [id] p).1.MapContainer GetEntity B [id] p
        ).1.m_entityContainers (GetEntity id) = some rB ∧
      Event.UpdatePriority rA ∈ (m.MapContainer GetEntity A [id] p).2 ∧
      ((m.MapContainer GetEntity A [id] p).1.MapContainer GetEntity B [id] p).2 =
        [Event.RemoveEntity rA (GetEntity id), Event.UpdatePriority rA,
         Event.AddEntity rB (GetEntity id), Event.UpdatePriority rB,
         Event.MapProcess rB p] := by
  have hinv := inv_of_reachable GetEntity m hreach
  obtain ⟨a1, ⟨rA, a2, a3, a4⟩, _⟩ := MapContainer_spec GetEntity m A [id] p hinv
  have htabA : mapFind (m.MapContainer GetEntity A [id] p).1.m_entityContainers
      (GetEntity id) = some rA := by
    rw [a4]
    simp
  obtain ⟨b1, ⟨rB, b2, b3, b4⟩, b5⟩ :=
    MapContainer_spec GetEntity (m.MapContainer GetEntity A [id] p).1 B [id] p a1
  have hregA := b5 A rA a2
  have htabB : mapFind ((m.MapContainer GetEntity A [id] p).1.MapContainer GetEntity B
      [id] p).1.m_entityContainers (GetEntity id) = some rB := by
    rw [b4]
    simp
  have hne : rA ≠ rB := by
    intro heq
    obtain ⟨c1, hc1, hn1⟩ := b1.regValid A rA hregA
    obtain ⟨c2, hc2, hn2⟩ := b1.regValid B rB b2
    rw [heq, hc2] at hc1
    have : c2 = c1 := Option.some.inj hc1
    rw [this, hn1] at hn2
    exact hAB hn2
  obtain ⟨cB, hcB, _⟩ := b1.regValid B rB b2
  refine ⟨rA, rB, hregA, b2, hne, ?_, ⟨cB, hcB, (b1.member rB cB hcB _).2 htabB⟩, htabB,
    ?_, ?_⟩
  · rintro ⟨c, hc, he⟩
    have := (b1.member rA c hc _).1 he
    rw [htabB] at this
    exact hne (Option.some.inj this).symm
  · rw [a3]
    simp [MapContainer]
  · have hne2 : ¬ rA = ((m.MapContainer GetEntity A [id] p).1.GetContainer B).2 := by
      rw [← b3]
      exact hne
    rw [b3]
    exact MapContainer_events_of_move GetEntity _ B id p rA htabA hne2

/-- The statement of C6 at the state after mapping entity 1 into "A" and entity 2 into "B",
for the names "B" and "C" and the identifier 2. -/
theorem c6_remap_moves_entity_witness :
    ∃ rA rB : ContainerRef,
      mapFind (((run id init [Op.MapContainer "A" [1] 10, Op.MapContainer "B" [2] 11]
        ).MapContainer id "B" [2] 12).1.MapContainer id "C" [2] 12).1.m_containers "B"
          = some rA ∧
      mapFind (((run id init [Op.MapContainer "A" [1] 10, Op.MapContainer "B" [2] 11]
        ).MapContainer id "B" [2] 12).1.MapContainer id "C" [2] 12).1.m_containers "C"
          = some rB ∧
      rA ≠ rB ∧
      ¬ isMember (((run id init [Op.MapContainer "A" [1] 10, Op.MapContainer "B" [2] 11]
        ).MapContainer id "B" [2] 12).1.MapContainer id "C" [2] 12).1 rA (id 2) ∧
      isMember (((run id init [Op.MapContainer "A" [1] 10, Op.MapContainer "B" [2] 11]
        ).MapContainer id "B" [2] 12).1.MapContainer id "C" [2] 12).1 rB (id 2) ∧
      mapFind (((run id init [Op.MapContainer "A" [1] 10, Op.MapContainer "B" [2] 11]
        ).MapContainer id "B" [2] 12).1.MapContainer id "C" [2] 12).1.m_entityContainers
          (id 2) = some rB ∧
      Event.UpdatePriority rA ∈ ((run id init
        [Op.MapContainer "A" [1] 10, Op.MapContainer "B" [2] 11]
        ).MapContainer id "B" [2] 12).2 ∧
      (((run id init [Op.MapContainer "A" [1] 10, Op.MapContainer "B" [2] 11]
        ).MapContainer id "B" [2] 12).1.MapContainer id "C" [2] 12).2 =
        [Event.RemoveEntity rA (id 2), Event.UpdatePriority rA,
         Event.AddEntity rB (id 2), Event.UpdatePriority rB,
         Event.MapProcess rB 12] :=
  c6_remap_moves_entity id _ ⟨[Op.MapContainer "A" [1] 10, Op.MapContainer "B" [2] 11], rfl⟩
    "B" "C" (by decide) 2 12

/-- C7: in every state, a second `GetContainer` of the same name returns the reference that
the first returned and changes nothing.  For a name that is not registered, the call
appends one registry entry, which binds the name to the returned reference, leaves every
other registry binding, the table and the flag as they were, and adds the newly created
container to the arena without touching the existing ones.  For a registered name the call
returns the registered reference and the state is the state before the call. -/
theorem c7_GetContainer_idempotent (m : ContainerManager) (name : String) :
    (m.GetContainer name).1.GetContainer name
      = ((m.GetContainer name).1, (m.GetContainer name).2) ∧
    (mapFind m.m_containers name = none →
      (m.GetContainer name).1.m_containers
        = m.m_containers ++ [(name, (m.GetContainer name).2)] ∧
      mapFind (m.GetContainer name).1.m_containers name = some (m.GetContainer name).2 ∧
      (∀ n, n ≠ name →
        mapFind (m.GetContainer name).1.m_containers n = mapFind m.m_containers n) ∧
      (m.GetContainer name).1.m_entityContainers = m.m_entityContainers ∧
      (m.GetContainer name).1.m_enabled = m.m_enabled ∧
      (m.GetContainer name).1.heap = m.heap ++ [m.CreateContainer name] ∧
      (m.GetContainer name).1.heap[(m.GetContainer name).2]?
        = some (m.CreateContainer name)) ∧
    (∀ r, mapFind m.m_containers name = some r → m.GetContainer name = (m, r)) := by
  cases hf : mapFind m.m_containers name with
  | some found =>
    have hg : m.GetContainer name = (m, found) := by simp [GetContainer, hf]
    rw [hg]
    refine ⟨hg, ?_, ?_⟩
    · intro h
      exact Option.noConfusion h
    · intro r hr
      rw [Option.some.inj hr]
  | none =>
    have hg : m.GetContainer name =
        ({ m with heap := m.heap ++ [m.CreateContainer name],
                  m_containers := mapSet m.m_containers name m.heap.length },
          m.heap.length) := by
      simp [GetContainer, hf]
    rw [hg]
    refine ⟨?_, ?_, ?_⟩
    · simp [GetContainer, mapFind_mapSet]
    · intro _
      refine ⟨mapSet_of_mapFind_none _ _ _ hf, by simp [mapFind_mapSet], ?_, rfl, rfl, rfl,
        List.getElem?_concat_length _ _⟩
      intro n hn
      have : ¬ name = n := fun hh => hn hh.symm
      simp [mapFind_mapSet, this]
    · intro r hr
      exact Option.noConfusion hr

/-- The statement of C7 at a newly constructed manager and the name "A", which is not
registered there. -/
theorem c7_GetContainer_idempotent_witness :
    (init.GetContainer "A").1.m_containers
        = init.m_containers ++ [("A", (init.GetContainer "A").2)] ∧
      mapFind (init.GetContainer "A").1.m_containers "A" = some (init.GetContainer "A").2 ∧
      (∀ n, n ≠ "A" →
        mapFind (init.GetContainer "A").1.m_containers n = mapFind init.m_containers n) ∧
      (init.GetContainer "A").1.m_entityContainers = init.m_entityContainers ∧
      (init.GetContainer "A").1.m_enabled = init.m_enabled ∧
      (init.GetContainer "A").1.heap = init.heap ++ [init.CreateContainer "A"] ∧
      (init.GetContainer "A").1.heap[(init.GetContainer "A").2]?
        = some (init.CreateContainer "A") :=
  (c7_GetContainer_idempotent init "A").2.1 rfl

/-! ## The container manager: what the operations leave alone -/

/-- The two outcomes of `GetContainer`: a hit returns the registered reference and the
state, a miss appends a new container object and a registry entry for it. -/
theorem GetContainer_cases (m : ContainerManager) (name : String) :
    (∃ found, mapFind m.m_containers name = some found ∧ m.GetContainer name = (m, found)) ∨
    (mapFind m.m_containers name = none ∧
      m.GetContainer name =
        ({ m with heap := m.heap ++ [m.CreateContainer name],
                  m_containers := m.m_containers ++ [(name, m.heap.length)] },
          m.heap.length)) := by
  cases hf : mapFind m.m_containers name with
  | some found =>
    left
    exact ⟨found, rfl, by simp [GetContainer, hf]⟩
  | none =>
    right
    refine ⟨rfl, ?_⟩
    simp [GetContainer, hf, mapSet_of_mapFind_none _ _ _ hf]

/-- A method that keeps an attribute of a container keeps the attributes of the arena. -/
theorem map_heapModify {α : Type} (g : ResourceContainer → α)
    (f : ResourceContainer → ResourceContainer) (hg : ∀ c, g (f c) = g c)
    (h : List ResourceContainer) (r : ContainerRef) :
    (heapModify f h r).map g = h.map g := by
  induction h generalizing r with
  | nil => rfl
  | cons c rest ih =>
    cases r with
    | zero => simp [heapModify, hg]
    | succ r => simp [heapModify, ih]

/-- The body of the loop keeps every attribute that adding and removing the entity keep. -/
theorem MapEntity_map {α : Type} (g : ResourceContainer → α) (container : ContainerRef)
    (m : ContainerManager) (e : Entity)
    (hA : ∀ c, g (ResourceContainer.AddEntity e c) = g c)
    (hR : ∀ c, g (ResourceContainer.RemoveEntity e c) = g c) :
    (MapEntity container m e).1.heap.map g = m.heap.map g := by
  cases hf : mapFind m.m_entityContainers e with
  | none => simp [MapEntity, hf, onContainer, map_heapModify g _ hA]
  | some cur =>
    by_cases hcur : cur = container
    · simp [MapEntity, hf, hcur]
    · simp [MapEntity, hf, hcur, onContainer, map_heapModify g _ hA, map_heapModify g _ hR]

/-- The loop keeps the registry and the flag, and every attribute of the container objects
that adding and removing the resolved entities keep. -/
theorem MapEntities_map {α : Type} (g : ResourceContainer → α)
    (GetEntity : BusId → Entity) (container : ContainerRef) (ids : List BusId)
    (m : ContainerManager)
    (hA : ∀ id ∈ ids, ∀ c, g (ResourceContainer.AddEntity (GetEntity id) c) = g c)
    (hR : ∀ id ∈ ids, ∀ c, g (ResourceContainer.RemoveEntity (GetEntity id) c) = g c) :
    (MapEntities GetEntity container m ids).1.heap.map g = m.heap.map g ∧
    (MapEntities GetEntity container m ids).1.m_containers = m.m_containers ∧
    (MapEntities GetEntity container m ids).1.m_enabled = m.m_enabled := by
  induction ids generalizing m with
  | nil => exact ⟨rfl, rfl, rfl⟩
  | cons id rest ih =>
    obtain ⟨hreg, _, hen⟩ := MapEntity_frame container m (GetEntity id)
    obtain ⟨i1, i2, i3⟩ := ih (MapEntity container m (GetEntity id)).1
      (fun id' h' => hA id' (List.mem_cons_of_mem _ h'))
      (fun id' h' => hR id' (List.mem_cons_of_mem _ h'))
    simp only [MapEntities]
    refine ⟨?_, i2.trans hreg, i3.trans hen⟩
    rw [i1]
    exact MapEntity_map g container m (GetEntity id) (hA id (List.mem_cons_self _ _))
      (hR id (List.mem_cons_self _ _))

/-- `MapContainer` after its `GetContainer`: the registry and the flag are those that
`GetContainer` left, and so is every attribute of the container objects that adding and
removing the resolved entities and mapping the process keep. -/
theorem MapContainer_map {α : Type} (g : ResourceContainer → α)
    (GetEntity : BusId → Entity) (m : ContainerManager) (name : String)
    (ids : List BusId) (pid : Pid)
    (hA : ∀ id ∈ ids, ∀ c, g (ResourceContainer.AddEntity (GetEntity id) c) = g c)
    (hR : ∀ id ∈ ids, ∀ c, g (ResourceContainer.RemoveEntity (GetEntity id) c) = g c)
    (hP : ∀ c, g (ResourceContainer.MapProcess pid c) = g c) :
    (m.MapContainer GetEntity name ids pid).1.heap.map g
      = (m.GetContainer name).1.heap.map g ∧
    (m.MapContainer GetEntity name ids pid).1.m_containers
      = (m.GetContainer name).1.m_containers ∧
    (m.MapContainer GetEntity name ids pid).1.m_enabled = (m.GetContainer name).1.m_enabled := by
  obtain ⟨l1, l2, l3⟩ :=
    MapEntities_map g GetEntity (m.GetContainer name).2 ids (m.GetContainer name).1 hA hR
  simp only [MapContainer, onContainer]
  exact ⟨by rw [map_heapModify g _ hP, l1], l2, l3⟩

theorem foldl_onContainer_map {α : Type} (g : ResourceContainer → α)
    (f : ResourceContainer → ResourceContainer) (hg : ∀ c, g (f c) = g c)
    (refs : List ContainerRef) (m : ContainerManager) :
    (refs.foldl (fun acc r => acc.onContainer r f) m).heap.map g = m.heap.map g := by
  induction refs generalizing m with
  | nil => rfl
  | cons r rest ih =>
    simp only [List.foldl_cons]
    rw [ih (m.onContainer r f)]
    exact map_heapModify g f hg m.heap r

/-- The arena after a broadcast of an idempotent method: the objects behind the listed
references have received the method, the others are as before. -/
theorem foldl_onContainer_getElem? (f : ResourceContainer → ResourceContainer)
    (hf : ∀ c, f (f c) = f c) (refs : List ContainerRef) (m : ContainerManager)
    (i : ContainerRef) :
    (refs.foldl (fun acc r => acc.onContainer r f) m).heap[i]? =
      if i ∈ refs then (m.heap[i]?).map f else m.heap[i]? := by
  induction refs generalizing m with
  | nil => simp
  | cons r rest ih =>
    simp only [List.foldl_cons]
    rw [ih (m.onContainer r f)]
    simp only [onContainer, getElem?_heapModify, List.mem_cons]
    by_cases hir : i = r
    · subst hir
      by_cases hrest : i ∈ rest
      · simp only [hrest, if_true, or_true]
        cases m.heap[i]? with
        | none => rfl
        | some c => simp [hf]
      · simp [hrest]
    · by_cases hrest : i ∈ rest <;> simp [hir, hrest]

/-- Equal attributes of two arenas, read at one index. -/
theorem getElem?_of_map_eq {α : Type} (g : ResourceContainer → α)
    {h1 h2 : List ResourceContainer} (heq : h1.map g = h2.map g) (i : ContainerRef)
    (c1 : ResourceContainer) (hc : h1[i]? = some c1) :
    ∃ c2, h2[i]? = some c2 ∧ g c2 = g c1 := by
  have h : (h2.map g)[i]? = some (g c1) := by
    rw [← heq, List.getElem?_map, hc]
    rfl
  rw [List.getElem?_map] at h
  cases h2i : h2[i]? with
  | none =>
    rw [h2i] at h
    exact Option.noConfusion h
  | some c2 =>
    rw [h2i] at h
    exact ⟨c2, rfl, Option.some.inj h⟩

/-! ## The container manager: flags and registry entries in reachable states -/

theorem mem_of_mapFind {κ ν : Type} [DecidableEq κ] (l : List (κ × ν)) (k : κ) (v : ν)
    (h : mapFind l k = some v) : (k, v) ∈ l := by
  induction l with
  | nil => simp [mapFind] at h
  | cons hd tl ih =>
    obtain ⟨k0, v0⟩ := hd
    by_cases h0 : k0 = k
    · simp only [mapFind, h0, if_true, Option.some.injEq] at h
      rw [h0, h]
      exact List.mem_cons_self _ _
    · simp only [mapFind, h0, if_false] at h
      exact List.mem_cons_of_mem _ (ih h)

theorem step_reachable (GetEntity : BusId → Entity) (m : ContainerManager) (op : Op)
    (h : Reachable GetEntity m) : Reachable GetEntity (step GetEntity m op) := by
  obtain ⟨ops, rfl⟩ := h
  exact ⟨ops ++ [op], by simp [run, List.foldl_append]⟩

theorem enabledInv_of_map_eq (m m' : ContainerManager)
    (hheap : m'.heap.map ResourceContainer.m_enabled = m.heap.map ResourceContainer.m_enabled)
    (hflag : m'.m_enabled = m.m_enabled) (h : EnabledInv m) : EnabledInv m' := by
  intro r c' hc'
  obtain ⟨c, hc, hg⟩ := getElem?_of_map_eq ResourceContainer.m_enabled hheap r c' hc'
  rw [hflag, ← hg]
  exact h r c hc

theorem enabled_AddEntity (e : Entity) (c : ResourceContainer) :
    (ResourceContainer.AddEntity e c).m_enabled = c.m_enabled :=
  (frame_AddEntity e c).2

theorem enabled_MapProcess (pid : Pid) (c : ResourceContainer) :
    (ResourceContainer.MapProcess pid c).m_enabled = c.m_enabled := by
  unfold ResourceContainer.MapProcess
  split <;> rfl

theorem enabledInv_GetContainer (m : ContainerManager) (name : String) (h : EnabledInv m) :
    EnabledInv (m.GetContainer name).1 := by
  rcases GetContainer_cases m name with ⟨found, _, hg⟩ | ⟨_, hg⟩
  · rw [hg]
    exact h
  · rw [hg]
    intro r c hc
    dsimp only at hc ⊢
    by_cases hr : r < m.heap.length
    · rw [List.getElem?_append_left hr] at hc
      exact h r c hc
    · have hlen := lt_of_heap_some hc
      simp only [List.length_append, List.length_singleton] at hlen
      have hr2 : r = m.heap.length :=
        Nat.le_antisymm (Nat.lt_succ_iff.1 hlen) (Nat.not_lt.1 hr)
      rw [hr2, List.getElem?_concat_length] at hc
      rw [← Option.some.inj hc]
      rfl

theorem enabledInv_MapContainer (GetEntity : BusId → Entity) (m : ContainerManager)
    (name : String) (ids : List BusId) (pid : Pid) (h : EnabledInv m) :
    EnabledInv (m.MapContainer GetEntity name ids pid).1 := by
  obtain ⟨h1, _, h3⟩ := MapContainer_map ResourceContainer.m_enabled GetEntity m name ids pid
    (fun _ _ c => enabled_AddEntity _ c) (fun _ _ _ => rfl) (fun c => enabled_MapProcess pid c)
  exact enabledInv_of_map_eq _ _ h1 h3 (enabledInv_GetContainer m name h)

/-- After a broadcast that sets the flag of a container to `b`, in a consistent state,
every container object carries `b`. -/
theorem enabled_broadcast (f : ResourceContainer → ResourceContainer) (b : Bool)
    (hf : ∀ c, f (f c) = f c) (hb : ∀ c, (f c).m_enabled = b) (m : ContainerManager)
    (hinv : Inv m) (r : ContainerRef) (c' : ResourceContainer)
    (hc' : (broadcast f m).heap[r]? = some c') : c'.m_enabled = b := by
  unfold broadcast at hc'
  rw [foldl_onContainer_getElem? f hf] at hc'
  cases hc : m.heap[r]? with
  | none =>
    rw [hc] at hc'
    simp at hc'
  | some c =>
    have hmem : r ∈ m.m_containers.map Prod.snd :=
      List.mem_map.2 ⟨(c.m_name, r), mem_of_mapFind _ _ _ (hinv.heapReg r c hc), rfl⟩
    rw [hc] at hc'
    simp only [hmem, if_true, Option.map_some', Option.some.injEq] at hc'
    rw [← hc']
    exact hb c

theorem enabledInv_Enable (m : ContainerManager) (hinv : Inv m) : EnabledInv m.Enable.1 := by
  intro r c' hc'
  have hflag : m.Enable.1.m_enabled = true := by
    unfold Enable broadcast
    exact (foldl_onContainer_frame ResourceContainer.Enable _ _).2.2
  rw [hflag]
  exact enabled_broadcast ResourceContainer.Enable true (fun _ => rfl) (fun _ => rfl)
    { m with m_enabled := true } (inv_set_enabled m true hinv) r c' hc'

theorem enabledInv_Disable (m : ContainerManager) (hinv : Inv m) :
    EnabledInv m.Disable.1 := by
  intro r c' hc'
  have hflag : m.Disable.1.m_enabled = false := by
    unfold Disable broadcast
    exact (foldl_onContainer_frame ResourceContainer.Disable _ _).2.2
  rw [hflag]
  exact enabled_broadcast ResourceContainer.Disable false (fun _ => rfl) (fun _ => rfl)
    { m with m_enabled := false } (inv_set_enabled m false hinv) r c' hc'

theorem enabledInv_step (GetEntity : BusId → Entity) (m : ContainerManager) (op : Op)
    (hinv : Inv m) (h : EnabledInv m) : EnabledInv (step GetEntity m op) := by
  cases op with
  | GetContainer name => exact enabledInv_GetContainer m name h
  | MapContainer name ids pid => exact enabledInv_MapContainer GetEntity m name ids pid h
  | InformEntityUpdated e =>
    simp only [step, InformEntityUpdated_state]
    exact h
  | Enable => exact enabledInv_Enable m hinv
  | Disable => exact enabledInv_Disable m hinv

theorem regWF_of_eq (m m' : ContainerManager) (hreg : m'.m_containers = m.m_containers)
    (hlen : m'.heap.length = m.heap.length) (h : RegWF m) : RegWF m' := by
  unfold RegWF
  rw [hreg, hlen]
  exact h

theorem regWF_GetContainer (m : ContainerManager) (name : String) (h : RegWF m) :
    RegWF (m.GetContainer name).1 := by
  rcases GetContainer_cases m name with ⟨found, _, hg⟩ | ⟨_, hg⟩
  · rw [hg]
    exact h
  · rw [hg]
    obtain ⟨h1, h2⟩ := h
    constructor
    · intro p hp
      simp only [List.length_append, List.length_singleton]
      rcases List.mem_append.1 hp with hp | hp
      · exact Nat.lt_succ_of_lt (h1 p hp)
      · rw [List.mem_singleton.1 hp]
        exact Nat.lt_succ_self _
    · simp only [List.map_append, List.map_cons, List.map_nil]
      refine List.Nodup.append h2 (List.nodup_singleton _) ?_
      intro r hr hr2
      rw [List.mem_singleton.1 hr2] at hr
      obtain ⟨p, hp, hpr⟩ := List.mem_map.1 hr
      have := h1 p hp
      rw [hpr] at this
      exact Nat.lt_irrefl _ this

theorem regWF_MapContainer (GetEntity : BusId → Entity) (m : ContainerManager)
    (name : String) (ids : List BusId) (pid : Pid) (h : RegWF m) :
    RegWF (m.MapContainer GetEntity name ids pid).1 := by
  obtain ⟨h1, h2, _⟩ := MapContainer_map (fun _ => ()) GetEntity m name ids pid
    (fun _ _ _ => rfl) (fun _ _ _ => rfl) (fun _ => rfl)
  have hlen := congrArg List.length h1
  simp only [List.length_map] at hlen
  exact regWF_of_eq _ _ h2 hlen (regWF_GetContainer m name h)

theorem regWF_broadcast (f : ResourceContainer → ResourceContainer) (m : ContainerManager)
    (h : RegWF m) : RegWF (broadcast f m) := by
  unfold broadcast
  have h1 := foldl_onContainer_map (fun _ => ()) f (fun _ => rfl)
    (m.m_containers.map Prod.snd) m
  have hlen := congrArg List.length h1
  simp only [List.length_map] at hlen
  exact regWF_of_eq _ _ (foldl_onContainer_frame f _ _).1 hlen h

theorem regWF_step (GetEntity : BusId → Entity) (m : ContainerManager) (op : Op)
    (h : RegWF m) : RegWF (step GetEntity m op) := by
  cases op with
  | GetContainer name => exact regWF_GetContainer m name h
  | MapContainer name ids pid => exact regWF_MapContainer GetEntity m name ids pid h
  | InformEntityUpdated e =>
    simp only [step, InformEntityUpdated_state]
    exact h
  | Enable => exact regWF_broadcast ResourceContainer.Enable { m with m_enabled := true } h
  | Disable => exact regWF_broadcast ResourceContainer.Disable { m with m_enabled := false } h

theorem flags_run (GetEntity : BusId → Entity) (ops : List Op) (m : ContainerManager)
    (hinv : Inv m) (he : EnabledInv m) (hw : RegWF m) :
    EnabledInv (run GetEntity m ops) ∧ RegWF (run GetEntity m ops) := by
  induction ops generalizing m with
  | nil => exact ⟨he, hw⟩
  | cons op rest ih =>
    exact ih _ (inv_step GetEntity m op hinv) (enabledInv_step GetEntity m op hinv he)
      (regWF_step GetEntity m op hw)

/-- In every reachable state every container object carries the flag of the manager, and
the registry entries hold pairwise different containers of the arena. -/
theorem flags_of_reachable (GetEntity : BusId → Entity) (m : ContainerManager)
    (h : Reachable GetEntity m) : EnabledInv m ∧ RegWF m := by
  obtain ⟨ops, rfl⟩ := h
  refine flags_run GetEntity ops init inv_init ?_ ?_
  · intro r c hc
    simp [init] at hc
  · exact ⟨by intro p hp; simp [init] at hp, by simp [init]⟩

/-! ## The container manager: the remaining claims -/

/-- C15: in every state, `InformEntityUpdated` returns the state it was given, so the
registry, the table and every member set are as before.  When the table records a container
for the entity, the only call made is one priority recomputation of that container; when
it records none, no call is made.  The function is total: it does not fail. -/
theorem c15_InformEntityUpdated_only_recomputes (m : ContainerManager) (entity : Entity) :
    (m.InformEntityUpdated entity).1 = m ∧
    (∀ c, mapFind m.m_entityContainers entity = some c →
      (m.InformEntityUpdated entity).2 = [Event.UpdatePriority c]) ∧
    (mapFind m.m_entityContainers entity = none → (m.InformEntityUpdated entity).2 = []) := by
  refine ⟨InformEntityUpdated_state m entity, ?_, ?_⟩
  · intro c h
    simp [InformEntityUpdated, h]
  · intro h
    simp [InformEntityUpdated, h]

/-- The statement of C15 after mapping entity 1 into "A" and entity 2 into "B": an update
of entity 2 recomputes the container of "B" only, an update of the unmapped entity 3
makes no call. -/
theorem c15_InformEntityUpdated_only_recomputes_witness :
    ((run id init [Op.MapContainer "A" [1] 10, Op.MapContainer "B" [2] 11]
      ).InformEntityUpdated 2).2 = [Event.UpdatePriority 1] ∧
    ((run id init [Op.MapContainer "A" [1] 10, Op.MapContainer "B" [2] 11]
      ).InformEntityUpdated 3).2 = [] :=
  ⟨(c15_InformEntityUpdated_only_recomputes
      (run id init [Op.MapContainer "A" [1] 10, Op.MapContainer "B" [2] 11]) 2).2.1 1 rfl,
   (c15_InformEntityUpdated_only_recomputes
      (run id init [Op.MapContainer "A" [1] 10, Op.MapContainer "B" [2] 11]) 3).2.2 rfl⟩

/-- C16: in every reachable state, a container that the table records for an entity is a
container object of the arena, and the registry binds the name of that object to this very
reference. -/
theorem c16_table_values_are_registered (GetEntity : BusId → Entity) (m : ContainerManager)
    (hreach : Reachable GetEntity m) (e : Entity) (r : ContainerRef)
    (h : mapFind m.m_entityContainers e = some r) :
    ∃ c : ResourceContainer, m.heap[r]? = some c ∧
      mapFind m.m_containers c.m_name = some r := by
  have hinv := inv_of_reachable GetEntity m hreach
  obtain ⟨c, hc⟩ := heap_some_of_lt (hinv.tabValid e r h)
  exact ⟨c, hc, hinv.heapReg r c hc⟩

/-- The statement of C16 for entity 1 after it was mapped into "A" and then into "B". -/
theorem c16_table_values_are_registered_witness :
    ∃ c : ResourceContainer,
      (run id init [Op.MapContainer "A" [1] 10, Op.MapContainer "B" [1] 11]).heap[1]?
        = some c ∧
      mapFind (run id init [Op.MapContainer "A" [1] 10, Op.MapContainer "B" [1] 11]
        ).m_containers c.m_name = some 1 :=
  c16_table_values_are_registered id _ ⟨_, rfl⟩ 1 1 rfl

theorem mapFind_append_of_some {κ ν : Type} [DecidableEq κ] (l l2 : List (κ × ν)) (k : κ)
    (v : ν) (h : mapFind l k = some v) : mapFind (l ++ l2) k = some v := by
  induction l with
  | nil => simp [mapFind] at h
  | cons hd tl ih =>
    obtain ⟨k0, v0⟩ := hd
    by_cases h0 : k0 = k
    · simp only [mapFind, h0, if_true] at h
      simp [mapFind, h0, h]
    · simp only [mapFind, h0, if_false] at h
      simp [mapFind, h0, ih h]

/-- In every state, an operation keeps every registry binding, and every container object
stays in the arena under its reference and with its name. -/
theorem step_keeps_registry (GetEntity : BusId → Entity) (m : ContainerManager) (op : Op) :
    (∀ n r, mapFind m.m_containers n = some r →
      mapFind (step GetEntity m op).m_containers n = some r) ∧
    (∀ (r : ContainerRef) (c : ResourceContainer), m.heap[r]? = some c →
      ∃ c' : ResourceContainer,
        (step GetEntity m op).heap[r]? = some c' ∧ c'.m_name = c.m_name) := by
  have hget : ∀ name,
      (∀ n r, mapFind m.m_containers n = some r →
        mapFind (m.GetContainer name).1.m_containers n = some r) ∧
      (∀ (r : ContainerRef) (c : ResourceContainer), m.heap[r]? = some c →
        (m.GetContainer name).1.heap[r]? = some c) := by
    intro name
    rcases GetContainer_cases m name with ⟨found, _, hg⟩ | ⟨_, hg⟩
    · rw [hg]
      exact ⟨fun _ _ h => h, fun _ _ h => h⟩
    · rw [hg]
      refine ⟨fun n r h => mapFind_append_of_some _ _ n r h, ?_⟩
      intro r c h
      dsimp only
      rw [List.getElem?_append_left (lt_of_heap_some h)]
      exact h
  cases op with
  | GetContainer name =>
    refine ⟨(hget name).1, ?_⟩
    intro r c h
    exact ⟨c, (hget name).2 r c h, rfl⟩
  | MapContainer name ids pid =>
    obtain ⟨h1, h2, _⟩ := MapContainer_map ResourceContainer.m_name GetEntity m name ids pid
      (fun _ _ c => name_AddEntity _ c) (fun _ _ _ => rfl) (fun c => name_MapProcess pid c)
    constructor
    · intro n r h
      simp only [step]
      rw [h2]
      exact (hget name).1 n r h
    · intro r c h
      obtain ⟨c', hc', hn⟩ :=
        getElem?_of_map_eq ResourceContainer.m_name h1.symm r c ((hget name).2 r c h)
      exact ⟨c', hc', hn⟩
  | InformEntityUpdated e =>
    simp only [step, InformEntityUpdated_state]
    exact ⟨fun _ _ h => h, fun r c h => ⟨c, h, rfl⟩⟩
  | Enable =>
    constructor
    · intro n r h
      simp only [step, Enable, broadcast]
      rw [(foldl_onContainer_frame ResourceContainer.Enable _ _).1]
      exact h
    · intro r c h
      have h1 := foldl_onContainer_map ResourceContainer.m_name ResourceContainer.Enable
        (fun _ => rfl) (m.m_containers.map Prod.snd) { m with m_enabled := true }
      exact getElem?_of_map_eq ResourceContainer.m_name h1.symm r c h
  | Disable =>
    constructor
    · intro n r h
      simp only [step, Disable, broadcast]
      rw [(foldl_onContainer_frame ResourceContainer.Disable _ _).1]
      exact h
    · intro r c h
      have h1 := foldl_onContainer_map ResourceContainer.m_name ResourceContainer.Disable
        (fun _ => rfl) (m.m_containers.map Prod.snd) { m with m_enabled := false }
      exact getElem?_of_map_eq ResourceContainer.m_name h1.symm r c h

/-- C17: for every state and every operation (`GetContainer`, `MapContainer`,
`InformEntityUpdated`, `Enable`, `Disable`), a name that the registry binds before the call
is bound to the same reference after it, and the container object behind a reference is
still in the arena after the call, with the same name; whether its member set is empty
plays no part. -/
theorem c17_registry_never_shrinks (GetEntity : BusId → Entity) (m : ContainerManager)
    (op : Op) (n : String) (r : ContainerRef) (h : mapFind m.m_containers n = some r) :
    mapFind (step GetEntity m op).m_containers n = some r ∧
    (∀ c : ResourceContainer, m.heap[r]? = some c →
      ∃ c' : ResourceContainer,
        (step GetEntity m op).heap[r]? = some c' ∧ c'.m_name = c.m_name) :=
  ⟨(step_keeps_registry GetEntity m op).1 n r h,
   fun c hc => (step_keeps_registry GetEntity m op).2 r c hc⟩

/-- The statement of C17 where the only member of the container of "A" is moved to "B":
"A" stays bound to its container, which is left without members. -/
theorem c17_registry_never_shrinks_witness :
    (mapFind (step id (run id init [Op.MapContainer "A" [1] 10])
        (Op.MapContainer "B" [1] 11)).m_containers "A" = some 0 ∧
      (∀ c : ResourceContainer, (run id init [Op.MapContainer "A" [1] 10]).heap[0]? = some c →
        ∃ c' : ResourceContainer,
          (step id (run id init [Op.MapContainer "A" [1] 10])
            (Op.MapContainer "B" [1] 11)).heap[0]? = some c' ∧ c'.m_name = c.m_name)) ∧
    (step id (run id init [Op.MapContainer "A" [1] 10])
      (Op.MapContainer "B" [1] 11)).heap[0]?
        = some { m_name := "A", m_entities := [], m_pids := [10], m_enabled := false } :=
  ⟨c17_registry_never_shrinks id (run id init [Op.MapContainer "A" [1] 10])
      (Op.MapContainer "B" [1] 11) "A" 0 rfl, rfl⟩

/-- The calls of the body of the loop: none recomputes the priority of the target and
none maps a process. -/
theorem MapEntity_events (container : ContainerRef) (m : ContainerManager) (e : Entity) :
    ¬ Event.UpdatePriority container ∈ (MapEntity container m e).2 ∧
    ∀ r q, ¬ Event.MapProcess r q ∈ (MapEntity container m e).2 := by
  cases hf : mapFind m.m_entityContainers e with
  | none => simp [MapEntity, hf]
  | some cur =>
    by_cases hcur : cur = container
    · simp [MapEntity, hf, hcur]
    · have hcur' : ¬ container = cur := fun h => hcur h.symm
      simp [MapEntity, hf, hcur, hcur']

theorem MapEntities_events (GetEntity : BusId → Entity) (container : ContainerRef)
    (ids : List BusId) (m : ContainerManager) :
    ¬ Event.UpdatePriority container ∈ (MapEntities GetEntity container m ids).2 ∧
    ∀ r q, ¬ Event.MapProcess r q ∈ (MapEntities GetEntity container m ids).2 := by
  induction ids generalizing m with
  | nil => simp [MapEntities]
  | cons id rest ih =>
    obtain ⟨a1, a2⟩ := MapEntity_events container m (GetEntity id)
    obtain ⟨b1, b2⟩ := ih (MapEntity container m (GetEntity id)).1
    simp only [MapEntities, List.mem_append, not_or]
    exact ⟨⟨a1, b1⟩, fun r q => ⟨a2 r q, b2 r q⟩⟩

/-- C19: in every state and for every name, identifier list and process, the calls of one
`MapContainer` are the calls of the loop over the identifiers followed by exactly one
priority recomputation of the target and then the mapping of the process into the target.
The loop recomputes the priority of the target never and maps no process, so among all the
calls the recomputation of the target occurs exactly once and the only mapping of a
process is the one of `pid` into the target, once. -/
theorem c19_target_recomputed_once (GetEntity : BusId → Entity) (m : ContainerManager)
    (name : String) (ids : List BusId) (pid : Pid) :
    (m.MapContainer GetEntity name ids pid).2 =
      (MapEntities GetEntity (m.GetContainer name).2 (m.GetContainer name).1 ids).2 ++
        [Event.UpdatePriority (m.GetContainer name).2,
         Event.MapProcess (m.GetContainer name).2 pid] ∧
    ¬ Event.UpdatePriority (m.GetContainer name).2 ∈
      (MapEntities GetEntity (m.GetContainer name).2 (m.GetContainer name).1 ids).2 ∧
    (∀ r q, ¬ Event.MapProcess r q ∈
      (MapEntities GetEntity (m.GetContainer name).2 (m.GetContainer name).1 ids).2) ∧
    (m.MapContainer GetEntity name ids pid).2.count
      (Event.UpdatePriority (m.GetContainer name).2) = 1 ∧
    (m.MapContainer GetEntity name ids pid).2.count
      (Event.MapProcess (m.GetContainer name).2 pid) = 1 ∧
    (∀ r q, Event.MapProcess r q ∈ (m.MapContainer GetEntity name ids pid).2 →
      r = (m.GetContainer name).2 ∧ q = pid) := by
  obtain ⟨e1, e2⟩ :=
    MapEntities_events GetEntity (m.GetContainer name).2 ids (m.GetContainer name).1
  have hev : (m.MapContainer GetEntity name ids pid).2 =
      (MapEntities GetEntity (m.GetContainer name).2 (m.GetContainer name).1 ids).2 ++
        [Event.UpdatePriority (m.GetContainer name).2,
         Event.MapProcess (m.GetContainer name).2 pid] := rfl
  refine ⟨hev, e1, e2, ?_, ?_, ?_⟩
  · rw [hev, List.count_append, List.count_eq_zero_of_not_mem e1]
    simp [List.count_cons]
  · rw [hev, List.count_append, List.count_eq_zero_of_not_mem (e2 _ _)]
    simp [List.count_cons]
  · intro r q hmem
    rw [hev] at hmem
    rcases List.mem_append.1 hmem with h | h
    · exact absurd h (e2 r q)
    · simp at h
      exact h

/-- The statement of C19 for empty, repeated and already mapped identifiers: each call
recomputes the priority of its target exactly once. -/
theorem c19_target_recomputed_once_witness :
    (init.MapContainer id "A" [] 10).2 = [Event.UpdatePriority 0, Event.MapProcess 0 10] ∧
    ((init.MapContainer id "A" [1, 1, 2] 10).1.MapContainer id "A" [2, 1] 11).2.count
      (Event.UpdatePriority
        ((init.MapContainer id "A" [1, 1, 2] 10).1.GetContainer "A").2) = 1 ∧
    ((init.MapContainer id "A" [1] 10).1.MapContainer id "B" [1] 11).2.count
      (Event.UpdatePriority ((init.MapContainer id "A" [1] 10).1.GetContainer "B").2) = 1 :=
  ⟨rfl,
   (c19_target_recomputed_once id (init.MapContainer id "A" [1, 1, 2] 10).1 "A" [2, 1]
      11).2.2.2.1,
   (c19_target_recomputed_once id (init.MapContainer id "A" [1] 10).1 "B" [1] 11).2.2.2.1⟩

theorem eq_of_fields (a b : ContainerManager) (h1 : a.heap = b.heap)
    (h2 : a.m_containers = b.m_containers)
    (h3 : a.m_entityContainers = b.m_entityContainers) (h4 : a.m_enabled = b.m_enabled) :
    a = b := by
  cases a
  cases b
  simp only [ContainerManager.mk.injEq]
  exact ⟨h1, h2, h3, h4⟩

/-- A broadcast of an idempotent method that changes none of the container objects changes
nothing. -/
theorem broadcast_eq_self (f : ResourceContainer → ResourceContainer)
    (hf : ∀ c, f (f c) = f c) (m : ContainerManager)
    (hfix : ∀ (r : ContainerRef) (c : ResourceContainer), m.heap[r]? = some c → f c = c) :
    broadcast f m = m := by
  obtain ⟨h2, h3, h4⟩ := foldl_onContainer_frame f (m.m_containers.map Prod.snd) m
  refine eq_of_fields _ _ ?_ h2 h3 h4
  apply List.ext_getElem?
  intro i
  unfold broadcast
  rw [foldl_onContainer_getElem? f hf]
  by_cases hi : i ∈ m.m_containers.map Prod.snd
  · simp only [hi, if_true]
    cases hc : m.heap[i]? with
    | none => rfl
    | some c => simp [hfix i c hc]
  · simp only [hi, if_false]

theorem Enable_eq_self (m : ContainerManager) (he : EnabledInv m) (hflag : m.m_enabled = true) :
    m.Enable.1 = m := by
  have hm : ({ m with m_enabled := true } : ContainerManager) = m :=
    eq_of_fields _ _ rfl rfl rfl hflag.symm
  unfold Enable
  simp only
  rw [hm]
  apply broadcast_eq_self ResourceContainer.Enable (fun _ => rfl)
  intro r c hc
  have := he r c hc
  rw [hflag] at this
  cases c
  simp only [ResourceContainer.Enable, ResourceContainer.mk.injEq, true_and]
  exact this.symm

theorem Disable_eq_self (m : ContainerManager) (he : EnabledInv m)
    (hflag : m.m_enabled = false) : m.Disable.1 = m := by
  have hm : ({ m with m_enabled := false } : ContainerManager) = m :=
    eq_of_fields _ _ rfl rfl rfl hflag.symm
  unfold Disable
  simp only
  rw [hm]
  apply broadcast_eq_self ResourceContainer.Disable (fun _ => rfl)
  intro r c hc
  have := he r c hc
  rw [hflag] at this
  cases c
  simp only [ResourceContainer.Disable, ResourceContainer.mk.injEq, true_and]
  exact this.symm

theorem Enable_flag (m : ContainerManager) : m.Enable.1.m_enabled = true := by
  unfold Enable broadcast
  exact (foldl_onContainer_frame ResourceContainer.Enable _ _).2.2

theorem Disable_flag (m : ContainerManager) : m.Disable.1.m_enabled = false := by
  unfold Disable broadcast
  exact (foldl_onContainer_frame ResourceContainer.Disable _ _).2.2

/-- C12: in every reachable state, `Enable` on an enabled manager and `Disable` on a
disabled manager return the state they were given: the flag, the registry, the table and
every container object, its enabled flag included, are as before.  Hence two calls of
`Enable` in a row leave the state of one call, and so do two calls of `Disable`. -/
theorem c12_repeated_toggle_keeps_state (GetEntity : BusId → Entity) (m : ContainerManager)
    (hreach : Reachable GetEntity m) :
    (m.m_enabled = true → m.Enable.1 = m) ∧
    (m.m_enabled = false → m.Disable.1 = m) ∧
    m.Enable.1.Enable.1 = m.Enable.1 ∧
    m.Disable.1.Disable.1 = m.Disable.1 := by
  have he := (flags_of_reachable GetEntity m hreach).1
  have heE := (flags_of_reachable GetEntity m.Enable.1
    (step_reachable GetEntity m Op.Enable hreach)).1
  have heD := (flags_of_reachable GetEntity m.Disable.1
    (step_reachable GetEntity m Op.Disable hreach)).1
  exact ⟨Enable_eq_self m he, Disable_eq_self m he,
    Enable_eq_self _ heE (Enable_flag m), Disable_eq_self _ heD (Disable_flag m)⟩

/-- The statement of C12 at an enabled manager with the containers "A", which was
registered before the manager was enabled, and "B", which was registered after. -/
theorem c12_repeated_toggle_keeps_state_witness :
    (run id init [Op.MapContainer "A" [1] 10, Op.Enable, Op.GetContainer "B"]).Enable.1
      = run id init [Op.MapContainer "A" [1] 10, Op.Enable, Op.GetContainer "B"] :=
  (c12_repeated_toggle_keeps_state id
    (run id init [Op.MapContainer "A" [1] 10, Op.Enable, Op.GetContainer "B"])
    ⟨_, rfl⟩).1 rfl

theorem registered_iff_mem (m : ContainerManager) (hinv : Inv m) (hw : RegWF m)
    (r : ContainerRef) : registered m r ↔ r ∈ m.m_containers.map Prod.snd := by
  constructor
  · rintro ⟨n, hn⟩
    exact List.mem_map.2 ⟨(n, r), mem_of_mapFind _ _ _ hn, rfl⟩
  · intro hr
    obtain ⟨p, hp, hpr⟩ := List.mem_map.1 hr
    have hlt := hw.1 p hp
    rw [hpr] at hlt
    obtain ⟨c, hc⟩ := heap_some_of_lt hlt
    exact ⟨c.m_name, hinv.heapReg r c hc⟩

/-- C13: in every state, `Enable` sets the flag of the manager, keeps the registry and the
table, and its calls are one container-level `Enable` per registry entry and nothing else;
`Disable` clears the flag, keeps the registry and the table, and its calls are one
container-level `Disable` per registry entry and nothing else.  In a reachable state the
registry entries hold pairwise different containers, so a registered container receives
the call exactly once and a container that is not registered receives none. -/
theorem c13_toggle_broadcasts_once (GetEntity : BusId → Entity) (m : ContainerManager) :
    (m.Enable.1.m_enabled = true ∧ m.Enable.1.m_containers = m.m_containers ∧
      m.Enable.1.m_entityContainers = m.m_entityContainers ∧
      m.Enable.2 = m.m_containers.map (fun p => Event.Enable p.2)) ∧
    (m.Disable.1.m_enabled = false ∧ m.Disable.1.m_containers = m.m_containers ∧
      m.Disable.1.m_entityContainers = m.m_entityContainers ∧
      m.Disable.2 = m.m_containers.map (fun p => Event.Disable p.2)) ∧
    (Reachable GetEntity m → ∀ r,
      (registered m r →
        m.Enable.2.count (Event.Enable r) = 1 ∧ m.Disable.2.count (Event.Disable r) = 1) ∧
      (¬ registered m r →
        m.Enable.2.count (Event.Enable r) = 0 ∧
        m.Disable.2.count (Event.Disable r) = 0)) := by
  have hE := foldl_onContainer_frame ResourceContainer.Enable
    (m.m_containers.map Prod.snd) { m with m_enabled := true }
  have hD := foldl_onContainer_frame ResourceContainer.Disable
    (m.m_containers.map Prod.snd) { m with m_enabled := false }
  refine ⟨⟨hE.2.2, hE.1, hE.2.1, by simp [Enable]⟩,
    ⟨hD.2.2, hD.1, hD.2.1, by simp [Disable]⟩, ?_⟩
  intro hreach r
  have hinv := inv_of_reachable GetEntity m hreach
  have hw := (flags_of_reachable GetEntity m hreach).2
  have hiff := registered_iff_mem m hinv hw r
  have injE : Function.Injective Event.Enable := fun a b h => by
    injection h
  have injD : Function.Injective Event.Disable := fun a b h => by
    injection h
  have cE : m.Enable.2.count (Event.Enable r) = (m.m_containers.map Prod.snd).count r :=
    List.count_map_of_injective _ Event.Enable injE r
  have cD : m.Disable.2.count (Event.Disable r) = (m.m_containers.map Prod.snd).count r :=
    List.count_map_of_injective _ Event.Disable injD r
  rw [cE, cD]
  constructor
  · intro hreg
    have := List.count_eq_one_of_mem hw.2 (hiff.1 hreg)
    exact ⟨this, this⟩
  · intro hreg
    have := List.count_eq_zero_of_not_mem (fun h => hreg (hiff.2 h))
    exact ⟨this, this⟩

/-- The statement of C13 at the state with the containers "A" and "B": the calls of
`Enable` are one for each of them, and the container of "B" receives exactly one. -/
theorem c13_toggle_broadcasts_once_witness :
    (run id init [Op.MapContainer "A" [1] 10, Op.MapContainer "B" [1] 11]).Enable.2
      = [Event.Enable 0, Event.Enable 1] ∧
    ((run id init [Op.MapContainer "A" [1] 10, Op.MapContainer "B" [1] 11]).Enable.2.count
        (Event.Enable 1) = 1 ∧
      (run id init [Op.MapContainer "A" [1] 10, Op.MapContainer "B" [1] 11]).Disable.2.count
        (Event.Disable 1) = 1) :=
  ⟨rfl,
   ((c13_toggle_broadcasts_once id
      (run id init [Op.MapContainer "A" [1] 10, Op.MapContainer "B" [1] 11])).2.2
      ⟨_, rfl⟩ 1).1 ⟨"B", rfl⟩⟩

/-- The loop leaves the binding of an entity alone when no identifier resolves to it. -/
theorem MapEntities_table_other (GetEntity : BusId → Entity) (container : ContainerRef)
    (ids : List BusId) (m : ContainerManager) (x : Entity)
    (hx : ¬ x ∈ ids.map GetEntity) :
    mapFind (MapEntities GetEntity container m ids).1.m_entityContainers x
      = mapFind m.m_entityContainers x := by
  induction ids generalizing m with
  | nil => rfl
  | cons id rest ih =>
    have hne : ¬ GetEntity id = x := by
      intro h
      apply hx
      rw [List.map_cons, h]
      exact List.mem_cons_self _ _
    have hrest : ¬ x ∈ rest.map GetEntity := by
      intro h
      apply hx
      rw [List.map_cons]
      exact List.mem_cons_of_mem _ h
    simp only [MapEntities]
    rw [ih _ hrest, MapEntity_table]
    simp only [hne, if_false]

/-- Membership read off the arena. -/
theorem isMember_iff_map (m : ContainerManager) (r : ContainerRef) (x : Entity) :
    isMember m r x ↔
      (m.heap.map (fun c => decide (x ∈ c.m_entities)))[r]? = some true := by
  unfold isMember
  rw [List.getElem?_map]
  cases m.heap[r]? with
  | none => simp
  | some c => simp

theorem isMember_GetContainer (m : ContainerManager) (name : String) (r : ContainerRef)
    (x : Entity) : isMember (m.GetContainer name).1 r x ↔ isMember m r x := by
  rcases GetContainer_cases m name with ⟨found, _, hg⟩ | ⟨_, hg⟩
  · rw [hg]
  · rw [hg]
    unfold isMember
    dsimp only
    constructor
    · rintro ⟨c, hc, hmem⟩
      by_cases hr : r < m.heap.length
      · rw [List.getElem?_append_left hr] at hc
        exact ⟨c, hc, hmem⟩
      · have hlen := lt_of_heap_some hc
        simp only [List.length_append, List.length_singleton] at hlen
        have hr2 : r = m.heap.length :=
          Nat.le_antisymm (Nat.lt_succ_iff.1 hlen) (Nat.not_lt.1 hr)
        rw [hr2, List.getElem?_concat_length] at hc
        rw [← Option.some.inj hc] at hmem
        simp [CreateContainer] at hmem
    · rintro ⟨c, hc, hmem⟩
      refine ⟨c, ?_, hmem⟩
      rw [List.getElem?_append_left (lt_of_heap_some hc)]
      exact hc

/-- C14: in every state, for every name, identifier list and process, `MapContainer`
leaves the recorded assignment of an entity that no identifier of the list resolves to as
it was, and such an entity is a member of a container object after the call exactly when
it was one before: the call removes it from no member set and adds it to none. -/
theorem c14_MapContainer_moves_only_named (GetEntity : BusId → Entity)
    (m : ContainerManager) (name : String) (ids : List BusId) (pid : Pid) (x : Entity)
    (hx : ¬ x ∈ ids.map GetEntity) :
    mapFind (m.MapContainer GetEntity name ids pid).1.m_entityContainers x
      = mapFind m.m_entityContainers x ∧
    ∀ r, isMember (m.MapContainer GetEntity name ids pid).1 r x ↔ isMember m r x := by
  have hne : ∀ id ∈ ids, ¬ x = GetEntity id := by
    intro id hid h
    apply hx
    rw [h]
    exact List.mem_map.2 ⟨id, hid, rfl⟩
  constructor
  · simp only [MapContainer, onContainer]
    rw [MapEntities_table_other GetEntity _ ids _ x hx, GetContainer_table]
  · intro r
    obtain ⟨h1, _, _⟩ := MapContainer_map (fun c => decide (x ∈ c.m_entities)) GetEntity m
      name ids pid
      (fun id hid c => by
        have := mem_AddEntity (GetEntity id) x c
        simp only [hne id hid, or_false] at this
        simp only [this])
      (fun id hid c => by
        have := mem_RemoveEntity (GetEntity id) x c
        simp only [ne_eq, hne id hid, not_false_eq_true, and_true] at this
        simp only [this])
      (fun c => by simp only [entities_MapProcess])
    rw [isMember_iff_map, h1, ← isMember_iff_map]
    exact isMember_GetContainer m name r x

/-- The statement of C14 for entity 1, a member of the container of "A", when entity 2 is
moved from "A" to "B": the binding and the membership of entity 1 stay. -/
theorem c14_MapContainer_moves_only_named_witness :
    mapFind ((run id init [Op.MapContainer "A" [1, 2] 10]).MapContainer id "B" [2] 11
      ).1.m_entityContainers 1
      = mapFind (run id init [Op.MapContainer "A" [1, 2] 10]).m_entityContainers 1 ∧
    ∀ r, isMember ((run id init [Op.MapContainer "A" [1, 2] 10]).MapContainer id "B" [2]
        11).1 r 1 ↔
      isMember (run id init [Op.MapContainer "A" [1, 2] 10]) r 1 :=
  c14_MapContainer_moves_only_named id (run id init [Op.MapContainer "A" [1, 2] 10]) "B"
    [2] 11 1 (by decide)

end ContainerManager

namespace SystemManagerProxy

/-! ## The boot-status proxy -/

/-- C3: from a state with the latch clear, the deliveries finished=false, finished=true,
finished=true are all processed, and the satisfaction pass runs exactly once: not in the
first delivery, once over the pending list in the second, not in the third. -/
theorem c3_false_true_true_one_pass (p : SystemManagerProxy) (h : p.m_bootIssued = false) :
    ∃ p3 ev1 ev2 ev3,
      p.deliver [finishedDelivery false, finishedDelivery true, finishedDelivery true]
        = some (p3, [ev1, ev2, ev3]) ∧
      passes ev1 = [] ∧ passes ev2 = [p.m_bootupRequirements] ∧ passes ev3 = [] ∧
      (passes (ev1 ++ ev2 ++ ev3)).length = 1 ∧
      p3.m_bootIssued = true ∧
      p3.m_bootupRequirements = p.m_bootupRequirements.map Requirement.Met := by
  refine ⟨{ p with m_bootupRequirements := p.m_bootupRequirements.map Requirement.Met,
                   m_bootIssued := true },
    [ProxyEvent.AmDisable EnableTag.UI_ENABLE],
    [ProxyEvent.MetAll p.m_bootupRequirements, ProxyEvent.AmEnable EnableTag.UI_ENABLE],
    [ProxyEvent.AmEnable EnableTag.UI_ENABLE], ?_, rfl, rfl, rfl, rfl, rfl, rfl⟩
  simp [deliver, BootStatusUpdate, finishedDelivery, MojErrNone, h]

/-- The statement of C3 at a newly constructed proxy with one pending requirement. -/
theorem c3_false_true_true_one_pass_witness :
    ∃ p3 ev1 ev2 ev3,
      (init.InstantiateRequirement 7 "bootup" (MojObject.bool true)).1.deliver
          [finishedDelivery false, finishedDelivery true, finishedDelivery true]
        = some (p3, [ev1, ev2, ev3]) ∧
      passes ev1 = [] ∧
      passes ev2 =
        [(init.InstantiateRequirement 7 "bootup" (MojObject.bool true)).1.m_bootupRequirements] ∧
      passes ev3 = [] ∧
      (passes (ev1 ++ ev2 ++ ev3)).length = 1 ∧
      p3.m_bootIssued = true ∧
      p3.m_bootupRequirements =
        (init.InstantiateRequirement 7 "bootup"
          (MojObject.bool true)).1.m_bootupRequirements.map Requirement.Met :=
  c3_false_true_true_one_pass
    (init.InstantiateRequirement 7 "bootup" (MojObject.bool true)).1 rfl

/-- C4: from a state with the latch clear, the deliveries finished=true, finished=false,
finished=true are all processed, and the satisfaction pass runs exactly twice: once in the
first delivery and once in the third, none in the second. -/
theorem c4_true_false_true_two_passes (p : SystemManagerProxy) (h : p.m_bootIssued = false) :
    ∃ p3 ev1 ev2 ev3,
      p.deliver [finishedDelivery true, finishedDelivery false, finishedDelivery true]
        = some (p3, [ev1, ev2, ev3]) ∧
      passes ev1 = [p.m_bootupRequirements] ∧ passes ev2 = [] ∧
      passes ev3 = [p.m_bootupRequirements.map Requirement.Met] ∧
      (passes (ev1 ++ ev2 ++ ev3)).length = 2 ∧
      p3.m_bootIssued = true := by
  refine ⟨{ p with
      m_bootupRequirements :=
        (p.m_bootupRequirements.map Requirement.Met).map Requirement.Met,
      m_bootIssued := true },
    [ProxyEvent.MetAll p.m_bootupRequirements, ProxyEvent.AmEnable EnableTag.UI_ENABLE],
    [ProxyEvent.AmDisable EnableTag.UI_ENABLE],
    [ProxyEvent.MetAll (p.m_bootupRequirements.map Requirement.Met),
      ProxyEvent.AmEnable EnableTag.UI_ENABLE], ?_, rfl, rfl, rfl, rfl, rfl⟩
  simp [deliver, BootStatusUpdate, finishedDelivery, MojErrNone, h]

/-- The statement of C4 at a newly constructed proxy with one pending requirement. -/
theorem c4_true_false_true_two_passes_witness :
    ∃ p3 ev1 ev2 ev3,
      (init.InstantiateRequirement 7 "bootup" (MojObject.bool true)).1.deliver
          [finishedDelivery true, finishedDelivery false, finishedDelivery true]
        = some (p3, [ev1, ev2, ev3]) ∧
      passes ev1 =
        [(init.InstantiateRequirement 7 "bootup" (MojObject.bool true)).1.m_bootupRequirements] ∧
      passes ev2 = [] ∧
      passes ev3 =
        [(init.InstantiateRequirement 7 "bootup"
          (MojObject.bool true)).1.m_bootupRequirements.map Requirement.Met] ∧
      (passes (ev1 ++ ev2 ++ ev3)).length = 2 ∧
      p3.m_bootIssued = true :=
  c4_true_false_true_two_passes
    (init.InstantiateRequirement 7 "bootup" (MojObject.bool true)).1 rfl

/-- C5: `InstantiateRequirement` returns a binding exactly when the name is "bootup" and
the value is the boolean true.  In that case the pending list grows by exactly the returned
binding, which is bound to the activity and to the shared boot core, and the latch (and the
rest of the state) is as before.  In every other case the call fails with an error and the
state is the state before the call. -/
theorem c5_instantiate_iff_bootup_true (p : SystemManagerProxy) (activity : ActivityId)
    (name : String) (value : MojObject) :
    ((∃ req, (p.InstantiateRequirement activity name value).2 = Except.ok req) ↔
      (name = "bootup" ∧ value = MojObject.bool true)) ∧
    (∀ req, (p.InstantiateRequirement activity name value).2 = Except.ok req →
      (p.InstantiateRequirement activity name value).1 =
        { p with m_bootupRequirements := p.m_bootupRequirements ++ [req] } ∧
      req.activity = activity ∧ req.core = p.m_bootupRequirementCore) ∧
    (¬ (name = "bootup" ∧ value = MojObject.bool true) →
      (∃ msg, (p.InstantiateRequirement activity name value).2 = Except.error msg) ∧
      (p.InstantiateRequirement activity name value).1 = p) := by
  by_cases hn : name = "bootup"
  · subst hn
    cases value with
    | bool b =>
      cases b
      · simp [InstantiateRequirement, MojObject.type, MojObject.boolValue]
      · simp only [InstantiateRequirement, MojObject.type, MojObject.boolValue]
        refine ⟨by simp, ?_, by simp⟩
        intro req hreq
        simp at hreq
        subst hreq
        simp
    | _ => simp [InstantiateRequirement, MojObject.type]
  · simp [InstantiateRequirement, hn]

/-- The statement of C5 at a newly constructed proxy: ("bootup", true) succeeds, while
("bootup", false), ("bootup", 1) and ("other", true) fail and leave the state alone. -/
theorem c5_instantiate_iff_bootup_true_witness :
    ((init.InstantiateRequirement 7 "bootup" (MojObject.bool true)).2
        = Except.ok { activity := 7, core := init.m_bootupRequirementCore, met := false }) ∧
    (init.InstantiateRequirement 7 "bootup" (MojObject.bool true)).1
        = { init with m_bootupRequirements := init.m_bootupRequirements ++
              [{ activity := 7, core := init.m_bootupRequirementCore, met := false }] } ∧
    (init.InstantiateRequirement 7 "bootup" (MojObject.bool false)).1 = init ∧
    (init.InstantiateRequirement 7 "bootup" (MojObject.int 1)).1 = init ∧
    (init.InstantiateRequirement 7 "other" (MojObject.bool true)).1 = init :=
  ⟨rfl,
   ((c5_instantiate_iff_bootup_true init 7 "bootup" (MojObject.bool true)).2.1 _ rfl).1,
   ((c5_instantiate_iff_bootup_true init 7 "bootup" (MojObject.bool false)).2.2
      (by decide)).2,
   ((c5_instantiate_iff_bootup_true init 7 "bootup" (MojObject.int 1)).2.2 (by decide)).2,
   ((c5_instantiate_iff_bootup_true init 7 "other" (MojObject.bool true)).2.2
      (by decide)).2⟩

/-- C8: a delivery with an error that is classified as permanent is processed in every
state; it makes no call at all (no reissue, no satisfaction pass, no scheduler hook), drops
the subscription handle and leaves the latch and the pending list as they were.  `Enable`
in the state that results installs a handle and issues that standing call exactly once,
again without touching the latch or the pending list. -/
theorem c8_permanent_failure_then_enable (p : SystemManagerProxy) (d : Delivery)
    (herr : d.err ≠ MojErrNone) (hperm : d.permanent = true) :
    ∃ p1, p.BootStatusUpdate d = some (p1, []) ∧
      p1.m_bootstatus = none ∧
      p1.m_bootIssued = p.m_bootIssued ∧
      p1.m_bootupRequirements = p.m_bootupRequirements ∧
      ∃ c, p1.Enable.1.m_bootstatus = some c ∧
        p1.Enable.2 = [ProxyEvent.Call c] ∧
        issuedCalls p1.Enable.2 = [c] ∧
        p1.Enable.1.m_bootIssued = p.m_bootIssued ∧
        p1.Enable.1.m_bootupRequirements = p.m_bootupRequirements := by
  refine ⟨{ p with m_bootstatus := none }, ?_, rfl, rfl, rfl, bootStatusCall, rfl, rfl, rfl,
    rfl, rfl⟩
  simp [BootStatusUpdate, herr, hperm]

/-- The statement of C8 at an enabled, newly constructed proxy and error code 5. -/
theorem c8_permanent_failure_then_enable_witness :
    ∃ p1, init.Enable.1.BootStatusUpdate { err := 5, permanent := true, finished := none }
        = some (p1, []) ∧
      p1.m_bootstatus = none ∧
      p1.m_bootIssued = init.Enable.1.m_bootIssued ∧
      p1.m_bootupRequirements = init.Enable.1.m_bootupRequirements ∧
      ∃ c, p1.Enable.1.m_bootstatus = some c ∧
        p1.Enable.2 = [ProxyEvent.Call c] ∧
        issuedCalls p1.Enable.2 = [c] ∧
        p1.Enable.1.m_bootIssued = init.Enable.1.m_bootIssued ∧
        p1.Enable.1.m_bootupRequirements = init.Enable.1.m_bootupRequirements :=
  c8_permanent_failure_then_enable init.Enable.1
    { err := 5, permanent := true, finished := none } (by decide) rfl

/-- C9: in a state that holds a subscription handle, a delivery with an error that is not
classified as permanent is processed, changes nothing in the state (handle, latch and
pending list included), and issues the held standing call exactly once, after the fixed
sleep of 250 ms, with no satisfaction pass and no scheduler hook.  When an error-free
finished=true delivery follows, the two deliveries together issue the call exactly once and
run at most one satisfaction pass. -/
theorem c9_transient_failure_retries_once (p : SystemManagerProxy) (d : Delivery)
    (c : MojoCall) (hhandle : p.m_bootstatus = some c) (herr : d.err ≠ MojErrNone)
    (htrans : d.permanent = false) :
    p.BootStatusUpdate d = some (p, [ProxyEvent.Sleep 250000000, ProxyEvent.Call c]) ∧
    issuedCalls [ProxyEvent.Sleep 250000000, ProxyEvent.Call c] = [c] ∧
    passes [ProxyEvent.Sleep 250000000, ProxyEvent.Call c] = [] ∧
    hookCalls [ProxyEvent.Sleep 250000000, ProxyEvent.Call c] = [] ∧
    ∃ p2 ev1 ev2, p.deliver [d, finishedDelivery true] = some (p2, [ev1, ev2]) ∧
      issuedCalls (ev1 ++ ev2) = [c] ∧
      (passes (ev1 ++ ev2)).length ≤ 1 ∧
      passes (ev1 ++ ev2) = (if p.m_bootIssued then [] else [p.m_bootupRequirements]) := by
  have h1 : p.BootStatusUpdate d
      = some (p, [ProxyEvent.Sleep 250000000, ProxyEvent.Call c]) := by
    simp [BootStatusUpdate, herr, htrans, hhandle]
  refine ⟨h1, rfl, rfl, rfl, ?_⟩
  cases hl : p.m_bootIssued
  · refine ⟨{ p with m_bootupRequirements := p.m_bootupRequirements.map Requirement.Met,
                     m_bootIssued := true },
      [ProxyEvent.Sleep 250000000, ProxyEvent.Call c],
      [ProxyEvent.MetAll p.m_bootupRequirements, ProxyEvent.AmEnable EnableTag.UI_ENABLE],
      ?_, rfl, by simp [passes], by simp [passes]⟩
    simp only [deliver, h1]
    simp [BootStatusUpdate, finishedDelivery, MojErrNone, hl]
  · refine ⟨p, [ProxyEvent.Sleep 250000000, ProxyEvent.Call c],
      [ProxyEvent.AmEnable EnableTag.UI_ENABLE], ?_, rfl, by simp [passes],
      by simp [passes]⟩
    simp only [deliver, h1]
    simp [BootStatusUpdate, finishedDelivery, MojErrNone, hl]

/-- The statement of C9 at an enabled, newly constructed proxy and error code 5. -/
theorem c9_transient_failure_retries_once_witness :
    init.Enable.1.BootStatusUpdate { err := 5, permanent := false, finished := none }
      = some (init.Enable.1, [ProxyEvent.Sleep 250000000, ProxyEvent.Call bootStatusCall]) :=
  (c9_transient_failure_retries_once init.Enable.1
    { err := 5, permanent := false, finished := none } bootStatusCall rfl (by decide) rfl).1

/-- C10: an error-free delivery that carries finished=b is processed in every state and
invokes exactly one scheduler hook, once, with the tag `UI_ENABLE`: the enable hook when b
is true and the disable hook when b is false.  Afterwards the latch equals b.  A
satisfaction pass runs exactly when b is true and the latch was clear; in particular none
runs when the latch was already set. -/
theorem c10_one_hook_per_delivery (p : SystemManagerProxy) (d : Delivery) (b : Bool)
    (herr : d.err = MojErrNone) (hfin : d.finished = some b) :
    ∃ p1 ev, p.BootStatusUpdate d = some (p1, ev) ∧
      hookCalls ev = [if b then ProxyEvent.AmEnable EnableTag.UI_ENABLE
                      else ProxyEvent.AmDisable EnableTag.UI_ENABLE] ∧
      p1.m_bootIssued = b ∧
      passes ev = (if b && !p.m_bootIssued then [p.m_bootupRequirements] else []) ∧
      issuedCalls ev = [] ∧
      p1.m_bootstatus = p.m_bootstatus := by
  cases b <;> cases hl : p.m_bootIssued <;>
    simp only [BootStatusUpdate, herr, hfin, hl, ne_eq, not_true_eq_false, if_false,
      if_true, Bool.not_false, Bool.not_true, Bool.false_eq_true, Bool.and_false,
      Bool.and_true, Bool.false_and, Bool.true_and] <;>
    refine ⟨_, _, rfl, ?_, ?_, ?_, ?_, ?_⟩ <;> first | rfl | exact hl

/-- The statement of C10 at a latched state and a finished=true delivery: the enable hook is
invoked and no pass runs. -/
theorem c10_one_hook_per_delivery_witness :
    ∃ p1 ev, ({ init with m_bootIssued := true } : SystemManagerProxy).BootStatusUpdate
        (finishedDelivery true) = some (p1, ev) ∧
      hookCalls ev = [if true then ProxyEvent.AmEnable EnableTag.UI_ENABLE
                      else ProxyEvent.AmDisable EnableTag.UI_ENABLE] ∧
      p1.m_bootIssued = true ∧
      passes ev = (if true && !({ init with m_bootIssued := true } :
        SystemManagerProxy).m_bootIssued then
          [({ init with m_bootIssued := true } : SystemManagerProxy).m_bootupRequirements]
        else []) ∧
      issuedCalls ev = [] ∧
      p1.m_bootstatus = ({ init with m_bootIssued := true } : SystemManagerProxy).m_bootstatus :=
  c10_one_hook_per_delivery { init with m_bootIssued := true } (finishedDelivery true) true
    rfl rfl

/-! ## The boot-status proxy: sequences of deliveries -/

theorem passes_append (a b : List ProxyEvent) : passes (a ++ b) = passes a ++ passes b := by
  induction a with
  | nil => rfl
  | cons e rest ih => cases e <;> simp [passes, ih]

/-- One delivery in terms of the value it reports: the latch takes the reported value, a
pass runs exactly when true is reported with the latch clear, and without a pass the
pending list is as before. -/
theorem BootStatusUpdate_signal (p p1 : SystemManagerProxy) (d : Delivery)
    (ev : List ProxyEvent) (h : p.BootStatusUpdate d = some (p1, ev)) :
    p1.m_bootIssued = (match signal d with | none => p.m_bootIssued | some b => b) ∧
    passes ev = (match signal d with
      | none => []
      | some b => if b && !p.m_bootIssued then [p.m_bootupRequirements] else []) ∧
    (passes ev = [] → p1.m_bootupRequirements = p.m_bootupRequirements) := by
  unfold BootStatusUpdate at h
  by_cases herr : d.err = MojErrNone
  · simp only [herr, ne_eq, not_true_eq_false, if_false] at h
    cases hfin : d.finished with
    | none =>
      simp only [hfin, Option.some.injEq, Prod.mk.injEq] at h
      obtain ⟨rfl, rfl⟩ := h
      simp [signal, herr, hfin, passes]
    | some b =>
      cases b <;> cases hl : p.m_bootIssued <;>
        simp only [hfin, hl, Bool.not_false, Bool.not_true, if_true, if_false,
          Bool.false_eq_true, Option.some.injEq, Prod.mk.injEq] at h <;>
        obtain ⟨rfl, rfl⟩ := h <;>
        simp [signal, herr, hfin, hl, passes]
  · simp only [herr, ne_eq, not_false_eq_true, if_true] at h
    by_cases hperm : d.permanent = true
    · simp only [hperm, if_true, Option.some.injEq, Prod.mk.injEq] at h
      obtain ⟨rfl, rfl⟩ := h
      simp [signal, herr, passes]
    · simp only [hperm, if_false] at h
      cases hb : p.m_bootstatus with
      | none =>
        rw [hb] at h
        exact Option.noConfusion h
      | some c =>
        rw [hb] at h
        simp only [Option.some.injEq, Prod.mk.injEq] at h
        obtain ⟨rfl, rfl⟩ := h
        simp [signal, herr, passes]

/-- A run of deliveries in terms of the reported values, from any latch value. -/
theorem deliver_edges (ds : List Delivery) (p p2 : SystemManagerProxy)
    (evs : List (List ProxyEvent)) (h : p.deliver ds = some (p2, evs)) :
    evs.map (fun ev => (passes ev).length)
      = (risingEdges p.m_bootIssued ds).map (fun b => if b then 1 else 0) ∧
    (passes evs.flatten).length = (risingEdges p.m_bootIssued ds).count true ∧
    p2.m_bootIssued = lastFinished p.m_bootIssued ds := by
  induction ds generalizing p evs with
  | nil =>
    simp only [deliver, Option.some.injEq, Prod.mk.injEq] at h
    obtain ⟨rfl, rfl⟩ := h
    simp [risingEdges, lastFinished, passes]
  | cons d rest ih =>
    simp only [deliver] at h
    cases h1 : p.BootStatusUpdate d with
    | none =>
      rw [h1] at h
      exact Option.noConfusion h
    | some r1 =>
      obtain ⟨p1, ev⟩ := r1
      rw [h1] at h
      simp only at h
      cases h2 : p1.deliver rest with
      | none =>
        rw [h2] at h
        exact Option.noConfusion h
      | some r2 =>
        obtain ⟨p3, evs'⟩ := r2
        rw [h2] at h
        simp only [Option.some.injEq, Prod.mk.injEq] at h
        obtain ⟨rfl, rfl⟩ := h
        obtain ⟨i1, i2, i3⟩ := ih p1 evs' h2
        obtain ⟨s1, s2, _⟩ := BootStatusUpdate_signal p p1 d ev h1
        cases hs : signal d with
        | none =>
          rw [hs] at s1 s2
          simp only at s1 s2
          rw [s1] at i1 i2 i3
          simp [risingEdges, lastFinished, hs, passes_append, s2, i1, i2, i3]
        | some b =>
          rw [hs] at s1 s2
          simp only at s1 s2
          rw [s1] at i1 i2 i3
          cases b <;> cases hl : p.m_bootIssued <;>
            simp [risingEdges, lastFinished, hs, passes_append, s2, i1, i2, i3, hl]

/-- A run of deliveries goes through when the handle is there and no error is classified
as permanent. -/
theorem deliver_total (ds : List Delivery) (p : SystemManagerProxy)
    (hh : p.m_bootstatus ≠ none)
    (hperm : ∀ d ∈ ds, d.err ≠ MojErrNone → d.permanent = false) :
    ∃ p2 evs, p.deliver ds = some (p2, evs) := by
  induction ds generalizing p with
  | nil => exact ⟨p, [], rfl⟩
  | cons d rest ih =>
    have hrest : ∀ d' ∈ rest, d'.err ≠ MojErrNone → d'.permanent = false :=
      fun d' hd' => hperm d' (List.mem_cons_of_mem _ hd')
    have hstep : ∃ p1 ev, p.BootStatusUpdate d = some (p1, ev) ∧
        p1.m_bootstatus = p.m_bootstatus := by
      unfold BootStatusUpdate
      by_cases herr : d.err = MojErrNone
      · simp only [herr, ne_eq, not_true_eq_false, if_false]
        cases hfin : d.finished with
        | none => exact ⟨_, _, rfl, rfl⟩
        | some b =>
          cases b <;> cases hl : p.m_bootIssued <;> exact ⟨_, _, rfl, rfl⟩
      · have hp := hperm d (List.mem_cons_self _ _) herr
        simp only [herr, ne_eq, not_false_eq_true, if_true, hp, Bool.false_eq_true, if_false]
        cases hb : p.m_bootstatus with
        | none => exact absurd hb hh
        | some c => exact ⟨_, _, rfl, hb⟩
    obtain ⟨p1, ev, h1, h1b⟩ := hstep
    have hh1 : p1.m_bootstatus ≠ none := by
      rw [h1b]
      exact hh
    obtain ⟨p2, evs, h2⟩ := ih p1 hh1 hrest
    exact ⟨p2, ev :: evs, by simp only [deliver, h1, h2]⟩

/-- While the latch is set and no delivery reports finished=false, no pass runs and the
pending list stays as it is. -/
theorem deliver_latched (ds : List Delivery) (p p2 : SystemManagerProxy)
    (evs : List (List ProxyEvent)) (hl : p.m_bootIssued = true)
    (hno : ∀ d ∈ ds, signal d ≠ some false) (h : p.deliver ds = some (p2, evs)) :
    passes evs.flatten = [] ∧ p2.m_bootupRequirements = p.m_bootupRequirements ∧
    p2.m_bootIssued = true := by
  induction ds generalizing p evs with
  | nil =>
    simp only [deliver, Option.some.injEq, Prod.mk.injEq] at h
    obtain ⟨rfl, rfl⟩ := h
    exact ⟨rfl, rfl, hl⟩
  | cons d rest ih =>
    simp only [deliver] at h
    cases h1 : p.BootStatusUpdate d with
    | none =>
      rw [h1] at h
      exact Option.noConfusion h
    | some r1 =>
      obtain ⟨p1, ev⟩ := r1
      rw [h1] at h
      simp only at h
      cases h2 : p1.deliver rest with
      | none =>
        rw [h2] at h
        exact Option.noConfusion h
      | some r2 =>
        obtain ⟨p3, evs'⟩ := r2
        rw [h2] at h
        simp only [Option.some.injEq, Prod.mk.injEq] at h
        obtain ⟨rfl, rfl⟩ := h
        obtain ⟨s1, s2, s3⟩ := BootStatusUpdate_signal p p1 d ev h1
        have hd := hno d (List.mem_cons_self _ _)
        have hev : passes ev = [] := by
          rw [s2]
          cases hs : signal d with
          | none => rfl
          | some b => simp [hl]
        have hl1 : p1.m_bootIssued = true := by
          rw [s1]
          cases hs : signal d with
          | none => exact hl
          | some b =>
            cases b
            · exact absurd hs hd
            · rfl
        obtain ⟨i1, i2, i3⟩ :=
          ih p1 evs' hl1 (fun d' hd' => hno d' (List.mem_cons_of_mem _ hd')) h2
        refine ⟨?_, ?_, i3⟩
        · simp [passes_append, hev, i1]
        · rw [i2, s3 hev]

/-- C11: an error-free delivery whose response has no field `finished` is processed in
every state, returns the state it was given (latch, pending list and handle included) and
makes no call: no satisfaction pass, no scheduler hook, no issue of the standing call. -/
theorem c11_missing_field_changes_nothing (p : SystemManagerProxy) (d : Delivery)
    (herr : d.err = MojErrNone) (hfin : d.finished = none) :
    p.BootStatusUpdate d = some (p, []) := by
  simp [BootStatusUpdate, herr, hfin]

/-- The statement of C11 at an enabled, latched proxy with one pending requirement. -/
theorem c11_missing_field_changes_nothing_witness :
    ({ (init.InstantiateRequirement 7 "bootup" (MojObject.bool true)).1.Enable.1 with
        m_bootIssued := true } : SystemManagerProxy).BootStatusUpdate
        { err := MojErrNone, permanent := false, finished := none }
      = some ({ (init.InstantiateRequirement 7 "bootup" (MojObject.bool true)).1.Enable.1 with
        m_bootIssued := true }, []) :=
  c11_missing_field_changes_nothing _ _ rfl rfl

/-- C18: for a proxy whose latch is clear, whenever a sequence of deliveries is processed,
the passes run delivery by delivery exactly at the rising edges of the reported value of
`finished` (deliveries with an error or without the field report nothing), so the number of
passes is the number of rising edges, and the latch ends as the last reported value, false
when nothing was reported.  A sequence is processed to its end whenever the handle is there
and no error is classified as permanent. -/
theorem c18_passes_are_rising_edges (p : SystemManagerProxy) (ds : List Delivery)
    (hlatch : p.m_bootIssued = false) :
    (∀ p2 evs, p.deliver ds = some (p2, evs) →
      evs.map (fun ev => (passes ev).length)
        = (risingEdges false ds).map (fun b => if b then 1 else 0) ∧
      (passes evs.flatten).length = (risingEdges false ds).count true ∧
      p2.m_bootIssued = lastFinished false ds) ∧
    (p.m_bootstatus ≠ none → (∀ d ∈ ds, d.err ≠ MojErrNone → d.permanent = false) →
      ∃ p2 evs, p.deliver ds = some (p2, evs)) := by
  refine ⟨?_, fun hh hperm => deliver_total ds p hh hperm⟩
  intro p2 evs h
  have := deliver_edges ds p p2 evs h
  rw [hlatch] at this
  exact this

/-- The statement of C18 for the deliveries: transient error, finished=true, no field,
finished=true, finished=false, finished=true, at an enabled, newly constructed proxy: two
rising edges, two passes, latch set at the end. -/
theorem c18_passes_are_rising_edges_witness :
    ∃ p2 evs,
      init.Enable.1.deliver
        [{ err := 5, permanent := false, finished := none }, finishedDelivery true,
         { err := MojErrNone, permanent := false, finished := none }, finishedDelivery true,
         finishedDelivery false, finishedDelivery true] = some (p2, evs) ∧
      evs.map (fun ev => (passes ev).length) = [0, 1, 0, 0, 0, 1] ∧
      (passes evs.flatten).length = 2 ∧
      p2.m_bootIssued = true :=
  ⟨_, _, rfl,
    ((c18_passes_are_rising_edges init.Enable.1
      [{ err := 5, permanent := false, finished := none }, finishedDelivery true,
       { err := MojErrNone, permanent := false, finished := none }, finishedDelivery true,
       finishedDelivery false, finishedDelivery true] rfl).1 _ _ rfl).1,
    rfl, rfl⟩

/-- C20: when the latch is set, `InstantiateRequirement(activity, "bootup", true)` returns
an unmet binding, appends it to the pending list and makes no call on it.  As long as no
delivery reports finished=false, every processed sequence of deliveries runs no pass, keeps
the latch set and leaves the pending list, the new binding included, as it was.  After a
finished=false delivery, the next finished=true delivery runs a pass over the pending list
with the new binding in it. -/
theorem c20_late_binding_waits_for_next_edge (p : SystemManagerProxy)
    (activity : ActivityId) (hlatch : p.m_bootIssued = true) :
    ∃ req : Requirement,
      p.InstantiateRequirement activity "bootup" (MojObject.bool true)
        = ({ p with m_bootupRequirements := p.m_bootupRequirements ++ [req] },
            Except.ok req) ∧
      req.activity = activity ∧ req.met = false ∧
      (∀ ds p2 evs, (∀ d ∈ ds, signal d ≠ some false) →
        (p.InstantiateRequirement activity "bootup" (MojObject.bool true)).1.deliver ds
          = some (p2, evs) →
        passes evs.flatten = [] ∧
        p2.m_bootupRequirements = p.m_bootupRequirements ++ [req] ∧
        p2.m_bootIssued = true) ∧
      ∃ p3 ev1 ev2,
        (p.InstantiateRequirement activity "bootup" (MojObject.bool true)).1.deliver
          [finishedDelivery false, finishedDelivery true] = some (p3, [ev1, ev2]) ∧
        passes ev1 = [] ∧
        passes ev2 = [p.m_bootupRequirements ++ [req]] ∧
        p3.m_bootupRequirements
          = (p.m_bootupRequirements ++ [req]).map Requirement.Met := by
  have hinst : p.InstantiateRequirement activity "bootup" (MojObject.bool true)
      = ({ p with m_bootupRequirements := p.m_bootupRequirements ++
            [{ activity := activity, core := p.m_bootupRequirementCore, met := false }] },
          Except.ok { activity := activity, core := p.m_bootupRequirementCore,
                      met := false }) := by
    simp [InstantiateRequirement, MojObject.type, MojObject.boolValue]
  refine ⟨{ activity := activity, core := p.m_bootupRequirementCore, met := false },
    hinst, rfl, rfl, ?_, ?_⟩
  · intro ds p2 evs hno h
    rw [hinst] at h
    exact deliver_latched ds
      { p with m_bootupRequirements := p.m_bootupRequirements ++
          [{ activity := activity, core := p.m_bootupRequirementCore, met := false }] }
      p2 evs hlatch hno h
  · rw [hinst]
    refine ⟨{ p with
        m_bootupRequirements := (p.m_bootupRequirements ++
          [({ activity := activity, core := p.m_bootupRequirementCore,
              met := false } : Requirement)]).map Requirement.Met,
        m_bootIssued := true },
      [ProxyEvent.AmDisable EnableTag.UI_ENABLE],
      [ProxyEvent.MetAll (p.m_bootupRequirements ++
          [({ activity := activity, core := p.m_bootupRequirementCore,
              met := false } : Requirement)]),
        ProxyEvent.AmEnable EnableTag.UI_ENABLE], ?_, rfl, rfl, rfl⟩
    simp [deliver, BootStatusUpdate, finishedDelivery, MojErrNone, hlatch]

/-- The statement of C20 at a latched proxy with handle: the late binding of activity 9 is
unmet and two more finished=true deliveries leave it in the pending list untouched. -/
theorem c20_late_binding_waits_for_next_edge_witness :
    ∃ req : Requirement,
      ({ init.Enable.1 with m_bootIssued := true } : SystemManagerProxy).InstantiateRequirement
          9 "bootup" (MojObject.bool true)
        = ({ ({ init.Enable.1 with m_bootIssued := true } : SystemManagerProxy) with
              m_bootupRequirements :=
                ({ init.Enable.1 with m_bootIssued := true } :
                  SystemManagerProxy).m_bootupRequirements ++ [req] },
            Except.ok req) ∧
      req.activity = 9 ∧ req.met = false :=
  (c20_late_binding_waits_for_next_edge { init.Enable.1 with m_bootIssued := true } 9 rfl).imp
    (fun _ h => ⟨h.1, h.2.1, h.2.2.1⟩)

end SystemManagerProxy

end ActivityManager
